import Mathlib

/-!
Verification development for the quiz view controller in `src/index.tsx`.

The source is a client-side controller over the DOM.  We embed it shallowly:

* Per-question answer state (`handleOptionClick`, `showExplanation`,
  `revealExplanation`): a question is a structure holding the dataset fields
  (`answered`, `attempts`), its option elements (their classes and `disabled`
  attribute), and the explanation machinery.  `dataset.attempts` is written by
  the code only via `toString` of a number and initialised to `'0'`, so a `Nat`
  is a faithful model on reachable states.

* The view-mode machine (`switchMode`, `renderSingleQuestion`,
  `restoreListView`): the document is modelled as a flat forest — a list of
  container elements, each holding an ordered list of child nodes; a child
  node is opaque except for its identity and whether it carries the
  `question` class.  This matches the design note in the spec (model
  re-parenting as an explicit identifier/position relation with the same
  attach/detach/insert-before capability set).  Nested question elements are
  outside the model.

  DOM operations are modelled with their real semantics.  In particular, per
  the WHATWG DOM standard, `parent.insertBefore(node, ref)` throws a
  `NotFoundError` when `ref` is non-null and its parent is not `parent`; it
  does not fall back to appending.  `innerHTML = ''` detaches all children.
  `appendChild` moves the node.  An exception thrown inside
  `Array.prototype.forEach` aborts the remaining iterations but keeps the
  mutations already made; an uncaught exception in an event handler does not
  stop the page, so later events still run.  We track this with an `errored`
  flag on the state: it is set when a modelled call throws, and the partial
  mutations made before the throw are kept.
-/

namespace Sinav

/-! ## Per-question answer state (`handleOptionClick` and friends) -/

/-- One answer option (an `.option` element): the static `correct` class plus
the mutable classes and the `disabled` attribute touched by the handler. -/
structure QOption where
  correct : Bool
  userCorrect : Bool
  userIncorrect : Bool
  revealedAnswer : Bool
  disabled : Bool
deriving DecidableEq

/-- A `.question` element: its dataset state, its option elements, and the
explanation machinery (the `.show-answer-btn` and the explanation element that
is the button's next sibling, with `explanationShown` standing for
`style.display === 'block'`). -/
structure Question where
  answered : Bool
  attempts : Nat
  opts : List QOption
  hasShowBtn : Bool
  hasExplanation : Bool
  explanationShown : Bool
deriving DecidableEq

/-- Update the option at a given index (the clicked `event.currentTarget`). -/
def setOpt (f : QOption → QOption) : List QOption → Nat → List QOption
  | [], _ => []
  | o :: rest, 0 => f o :: rest
  | o :: rest, n + 1 => o :: setOpt f rest n

/-- `question.querySelector('.option.correct')` followed by
`classList.add('revealed-answer')`: mark the first correct option, if any. -/
def markCorrectRevealed : List QOption → List QOption
  | [] => []
  | o :: rest =>
    if o.correct then { o with revealedAnswer := true } :: rest
    else o :: markCorrectRevealed rest

/-- `showExplanation`: toggle the explanation's display between hidden
(`'none'`/`''`) and shown (`'block'`), when the explanation element exists. -/
def showExplanation (q : Question) : Question :=
  if q.hasExplanation then
    if q.explanationShown then { q with explanationShown := false }
    else { q with explanationShown := true }
  else q

/-- `revealExplanation`: if the show-answer button and the explanation exist
and the explanation is hidden, show it. -/
def revealExplanation (q : Question) : Question :=
  if q.hasShowBtn then
    if q.hasExplanation ∧ q.explanationShown = false then showExplanation q
    else q
  else q

/-- `handleOptionClick` on the option at index `i` of question `q`,
translated branch by branch from the source. -/
def handleOptionClick (q : Question) (i : Nat) : Question :=
  match q.opts.get? i with
  | none => q
  | some o =>
    if q.answered = true ∨ o.userIncorrect = true then q
    else
      let attempts := q.attempts + 1
      let q1 : Question := { q with attempts := attempts }
      if o.correct then
        let q2 : Question :=
          { q1 with
            opts := (setOpt (fun oo => { oo with userCorrect := true }) q1.opts i).map
              (fun oo => { oo with disabled := true }),
            answered := true }
        revealExplanation q2
      else
        let q2 : Question :=
          { q1 with
            opts := setOpt (fun oo => { oo with userIncorrect := true, disabled := true })
              q1.opts i }
        if attempts ≥ 2 then
          let q3 : Question := { q2 with answered := true, opts := markCorrectRevealed q2.opts }
          let q4 : Question :=
            { q3 with
              opts := q3.opts.map (fun oo => if oo.disabled then oo else { oo with disabled := true }) }
          revealExplanation q4
        else q2

/-- A click is ignored when the target is missing, the question is answered,
or the clicked option was already marked user-incorrect (the early return of
`handleOptionClick`). -/
def clickIgnored (q : Question) (i : Nat) : Bool :=
  match q.opts.get? i with
  | none => true
  | some o => q.answered || o.userIncorrect

/-- Run a sequence of option clicks against one question. -/
def runClicks (q : Question) (l : List Nat) : Question :=
  l.foldl handleOptionClick q

/-- The number of clicks in a sequence that are not ignored at the moment they
happen. -/
def effClicks : Question → List Nat → Nat
  | _, [] => 0
  | q, i :: rest => (if clickIgnored q i then 0 else 1) + effClicks (handleOptionClick q i) rest

theorem showExplanation_answered (q : Question) : (showExplanation q).answered = q.answered := by
  unfold showExplanation; split; { split <;> rfl }; rfl

theorem showExplanation_attempts (q : Question) : (showExplanation q).attempts = q.attempts := by
  unfold showExplanation; split; { split <;> rfl }; rfl

theorem showExplanation_opts (q : Question) : (showExplanation q).opts = q.opts := by
  unfold showExplanation; split; { split <;> rfl }; rfl

theorem revealExplanation_answered (q : Question) :
    (revealExplanation q).answered = q.answered := by
  unfold revealExplanation
  split <;> [skip; rfl]
  split <;> [exact showExplanation_answered q; rfl]

theorem revealExplanation_attempts (q : Question) :
    (revealExplanation q).attempts = q.attempts := by
  unfold revealExplanation
  split <;> [skip; rfl]
  split <;> [exact showExplanation_attempts q; rfl]

theorem revealExplanation_opts (q : Question) : (revealExplanation q).opts = q.opts := by
  unfold revealExplanation
  split <;> [skip; rfl]
  split <;> [exact showExplanation_opts q; rfl]

/-- When the button and explanation exist, `revealExplanation` always leaves
the explanation shown. -/
theorem revealExplanation_shown (q : Question) (hb : q.hasShowBtn = true)
    (he : q.hasExplanation = true) : (revealExplanation q).explanationShown = true := by
  unfold revealExplanation showExplanation
  rw [hb]
  simp only [he, if_true]
  by_cases hs : q.explanationShown
  · simp [hs]
  · simp [hs]

/-- One click adds one to `attempts` exactly when it is not ignored. -/
theorem handleOptionClick_attempts (q : Question) (i : Nat) :
    (handleOptionClick q i).attempts = q.attempts + (if clickIgnored q i then 0 else 1) := by
  unfold handleOptionClick clickIgnored
  cases hg : q.opts.get? i with
  | none => simp
  | some o =>
    simp only
    by_cases hign : q.answered = true ∨ o.userIncorrect = true
    · rw [if_pos hign]
      have : (q.answered || o.userIncorrect) = true := by
        rcases hign with h | h <;> simp [h]
      simp [this]
    · rw [if_neg hign]
      have : (q.answered || o.userIncorrect) = false := by
        push_neg at hign
        simp [hign.1, hign.2]
      simp only [this, Bool.false_eq_true, if_false]
      split
      · rw [revealExplanation_attempts]
      · split
        · rw [revealExplanation_attempts]
        · rfl

/-- One click never turns `answered` back off. -/
theorem handleOptionClick_answered_mono (q : Question) (i : Nat) (h : q.answered = true) :
    (handleOptionClick q i).answered = true := by
  unfold handleOptionClick
  cases hg : q.opts.get? i with
  | none => exact h
  | some o => simp [h]

theorem handleOptionClick_attempts_mono (q : Question) (i : Nat) :
    q.attempts ≤ (handleOptionClick q i).attempts := by
  rw [handleOptionClick_attempts]
  exact Nat.le_add_right _ _

theorem runClicks_attempts_eq (l : List Nat) :
    ∀ q : Question, (runClicks q l).attempts = q.attempts + effClicks q l := by
  induction l with
  | nil => intro q; simp [runClicks, effClicks]
  | cons i rest ih =>
    intro q
    show (runClicks (handleOptionClick q i) rest).attempts = _
    rw [ih, handleOptionClick_attempts, effClicks]
    omega

theorem runClicks_answered_mono (l : List Nat) :
    ∀ q : Question, q.answered = true → (runClicks q l).answered = true := by
  induction l with
  | nil => intro q h; exact h
  | cons i rest ih =>
    intro q h
    exact ih (handleOptionClick q i) (handleOptionClick_answered_mono q i h)

/-- Index of the first option carrying the `correct` class
(`querySelector('.option.correct')`). -/
def firstCorrect : List QOption → Option Nat
  | [] => none
  | o :: rest => if o.correct then some 0 else (firstCorrect rest).map (· + 1)

theorem setOpt_get?_ne (f : QOption → QOption) (l : List QOption) :
    ∀ i j : Nat, i ≠ j → (setOpt f l i).get? j = l.get? j := by
  induction l with
  | nil => intro i j _; cases i <;> rfl
  | cons o rest ih =>
    intro i j hij
    cases i with
    | zero => cases j with
      | zero => exact absurd rfl hij
      | succ j => rfl
    | succ i => cases j with
      | zero => rfl
      | succ j => exact ih i j (fun h => hij (by rw [h]))

theorem setOpt_get?_eq (f : QOption → QOption) (l : List QOption) :
    ∀ i : Nat, (setOpt f l i).get? i = (l.get? i).map f := by
  induction l with
  | nil => intro i; cases i <;> rfl
  | cons o rest ih =>
    intro i
    cases i with
    | zero => rfl
    | succ i => exact ih i

theorem firstCorrect_setOpt (f : QOption → QOption) (hf : ∀ o, (f o).correct = o.correct)
    (l : List QOption) : ∀ i : Nat, firstCorrect (setOpt f l i) = firstCorrect l := by
  induction l with
  | nil => intro i; cases i <;> rfl
  | cons o rest ih =>
    intro i
    cases i with
    | zero =>
      show firstCorrect (f o :: rest) = firstCorrect (o :: rest)
      unfold firstCorrect
      rw [hf o]
    | succ i =>
      show firstCorrect (o :: setOpt f rest i) = firstCorrect (o :: rest)
      unfold firstCorrect
      rw [ih i]

theorem markCorrectRevealed_get? (l : List QOption) :
    ∀ c : Nat, firstCorrect l = some c →
      (markCorrectRevealed l).get? c = (l.get? c).map (fun o => { o with revealedAnswer := true }) := by
  induction l with
  | nil => intro c h; cases h
  | cons o rest ih =>
    intro c h
    unfold firstCorrect at h
    by_cases hc : o.correct
    · rw [if_pos hc] at h
      cases h
      unfold markCorrectRevealed
      rw [if_pos hc]
      rfl
    · rw [if_neg hc] at h
      cases hrest : firstCorrect rest with
      | none => rw [hrest] at h; cases h
      | some cr =>
        rw [hrest] at h
        obtain rfl : cr + 1 = c := Option.some.inj h
        unfold markCorrectRevealed
        rw [if_neg hc]
        show (o :: markCorrectRevealed rest).get? (cr + 1) =
          ((o :: rest).get? (cr + 1)).map (fun o => { o with revealedAnswer := true })
        rw [List.get?_cons_succ, List.get?_cons_succ]
        exact ih cr hrest

theorem firstCorrect_get? (l : List QOption) :
    ∀ c : Nat, firstCorrect l = some c → ∃ o, l.get? c = some o ∧ o.correct = true := by
  induction l with
  | nil => intro c h; cases h
  | cons o rest ih =>
    intro c h
    unfold firstCorrect at h
    by_cases hc : o.correct
    · rw [if_pos hc] at h
      cases h
      exact ⟨o, rfl, hc⟩
    · rw [if_neg hc] at h
      cases hrest : firstCorrect rest with
      | none => rw [hrest] at h; cases h
      | some cr =>
        rw [hrest] at h
        obtain rfl : cr + 1 = c := Option.some.inj h
        obtain ⟨oc, hoc, hocc⟩ := ih cr hrest
        exact ⟨oc, by rw [List.get?_cons_succ]; exact hoc, hocc⟩

/-- Evaluating `handleOptionClick` on a wrong click that is not the second
one: only the attempts counter and the clicked option change. -/
theorem handleOptionClick_wrong_first (q : Question) (i : Nat) (oi : QOption)
    (hg : q.opts.get? i = some oi) (ha : q.answered = false) (hui : oi.userIncorrect = false)
    (hc : oi.correct = false) (hat : q.attempts = 0) :
    handleOptionClick q i =
      { q with
        attempts := 1,
        opts := setOpt (fun oo => { oo with userIncorrect := true, disabled := true }) q.opts i } := by
  unfold handleOptionClick
  simp only [hg, ha, hui, hc, hat, Bool.false_eq_true, or_self, if_false]
  norm_num

/-- Evaluating `handleOptionClick` on a second wrong click: the question is
resolved by exhaustion. -/
theorem handleOptionClick_wrong_second (q : Question) (i : Nat) (oi : QOption)
    (hg : q.opts.get? i = some oi) (ha : q.answered = false) (hui : oi.userIncorrect = false)
    (hc : oi.correct = false) (hat : q.attempts = 1) :
    handleOptionClick q i =
      revealExplanation
        { q with
          attempts := 2, answered := true,
          opts := (markCorrectRevealed
              (setOpt (fun oo => { oo with userIncorrect := true, disabled := true }) q.opts i)).map
            (fun oo => if oo.disabled then oo else { oo with disabled := true }) } := by
  unfold handleOptionClick
  simp only [hg, ha, hui, hc, hat, Bool.false_eq_true, or_self, if_false]
  norm_num

theorem disable_step_revealedAnswer (x : QOption) :
    ((if x.disabled then x else { x with disabled := true }) : QOption).revealedAnswer =
      x.revealedAnswer := by
  by_cases h : x.disabled <;> simp [h]

theorem disable_step_disabled (x : QOption) :
    ((if x.disabled then x else { x with disabled := true }) : QOption).disabled = true := by
  by_cases h : x.disabled <;> simp [h]

/-- C5 (confirmed): on a fresh question (attempts 0, unanswered, explanation
hidden, show-answer machinery present), a first wrong click yields one
attempt, disables that option, does not resolve the question and does not
force the explanation open; a second wrong click on a different option yields
two attempts, resolves the question, flags the first correct option as the
revealed answer, forces the explanation open, and disables every option. -/
theorem c5_two_wrong_clicks (q : Question) (i j c : Nat) (oi oj : QOption)
    (hat : q.attempts = 0) (ha : q.answered = false)
    (hgi : q.opts.get? i = some oi) (hci : oi.correct = false) (hui : oi.userIncorrect = false)
    (hgj : q.opts.get? j = some oj) (hcj : oj.correct = false) (huj : oj.userIncorrect = false)
    (hij : i ≠ j) (hfc : firstCorrect q.opts = some c)
    (hbtn : q.hasShowBtn = true) (hexp : q.hasExplanation = true)
    (hsh : q.explanationShown = false) :
    (handleOptionClick q i).attempts = 1 ∧
    ((handleOptionClick q i).opts.get? i).map QOption.disabled = some true ∧
    (handleOptionClick q i).answered = false ∧
    (handleOptionClick q i).explanationShown = false ∧
    (handleOptionClick (handleOptionClick q i) j).attempts = 2 ∧
    (handleOptionClick (handleOptionClick q i) j).answered = true ∧
    ((handleOptionClick (handleOptionClick q i) j).opts.get? c).map QOption.revealedAnswer =
      some true ∧
    (handleOptionClick (handleOptionClick q i) j).explanationShown = true ∧
    ∀ o ∈ (handleOptionClick (handleOptionClick q i) j).opts, o.disabled = true := by
  have hwfc : ∀ o : QOption,
      ({ o with userIncorrect := true, disabled := true } : QOption).correct = o.correct :=
    fun _ => rfl
  have h1 := handleOptionClick_wrong_first q i oi hgi ha hui hci hat
  -- facts about the intermediate state
  have hq1opts : (handleOptionClick q i).opts =
      setOpt (fun oo => { oo with userIncorrect := true, disabled := true }) q.opts i := by
    rw [h1]
  have hq1j : (handleOptionClick q i).opts.get? j = some oj := by
    rw [hq1opts, setOpt_get?_ne _ _ i j hij, hgj]
  have hq1a : (handleOptionClick q i).answered = false := by rw [h1]; exact ha
  have hq1at : (handleOptionClick q i).attempts = 1 := by rw [h1]
  have h2 := handleOptionClick_wrong_second (handleOptionClick q i) j oj hq1j hq1a huj hcj hq1at
  -- the index of the correct option is neither i nor j
  obtain ⟨ocor, hocor, hocorc⟩ := firstCorrect_get? q.opts c hfc
  have hic : i ≠ c := by
    intro h
    rw [h, hocor] at hgi
    cases hgi
    rw [hocorc] at hci
    cases hci
  have hjc : j ≠ c := by
    intro h
    rw [h, hocor] at hgj
    cases hgj
    rw [hocorc] at hcj
    cases hcj
  have hfc1 : firstCorrect (setOpt (fun oo => { oo with userIncorrect := true, disabled := true })
      (handleOptionClick q i).opts j) = some c := by
    rw [firstCorrect_setOpt _ hwfc, hq1opts, firstCorrect_setOpt _ hwfc]
    exact hfc
  refine ⟨hq1at, ?_, hq1a, ?_, ?_, ?_, ?_, ?_, ?_⟩
  · rw [hq1opts, setOpt_get?_eq, hgi]
    rfl
  · rw [h1]; exact hsh
  · rw [h2, revealExplanation_attempts]
  · rw [h2, revealExplanation_answered]
  · rw [h2, revealExplanation_opts]
    show ((List.map _ (markCorrectRevealed _)).get? c).map QOption.revealedAnswer = some true
    rw [List.get?_map, markCorrectRevealed_get? _ c hfc1,
      setOpt_get?_ne _ _ j c hjc, hq1opts, setOpt_get?_ne _ _ i c hic, hocor]
    simp only [Option.map_some']
    by_cases hd : ocor.disabled = true
    · rw [if_pos hd]
    · rw [if_neg hd]
  · have hbtn1 : (handleOptionClick q i).hasShowBtn = true := by rw [h1]; exact hbtn
    have hexp1 : (handleOptionClick q i).hasExplanation = true := by rw [h1]; exact hexp
    rw [h2]
    exact revealExplanation_shown _ hbtn1 hexp1
  · intro o hmem
    rw [h2, revealExplanation_opts] at hmem
    simp only [List.mem_map] at hmem
    obtain ⟨x, _, hx⟩ := hmem
    rw [← hx]
    exact disable_step_disabled x

/-! ### Claims about the answer-state machine -/

/-- C2 (corrected): `attempts` counts every submission that is not ignored,
correct or incorrect alike — it starts at the stored value and grows by one on
each non-ignored click. -/
theorem c2_attempts_counts_all_submissions (q : Question) (l : List Nat) :
    (runClicks q l).attempts = q.attempts + effClicks q l :=
  runClicks_attempts_eq l q

/-- A fresh one-option question whose only option is correct. -/
def qCorrectOnly : Question :=
  { answered := false, attempts := 0,
    opts := [{ correct := true, userCorrect := false, userIncorrect := false,
               revealedAnswer := false, disabled := false }],
    hasShowBtn := true, hasExplanation := true, explanationShown := false }

/-- C2 counterexample: a non-ignored click on a correct option still
increments `attempts` (from 0 to 1), although no wrong answer was submitted,
so `attempts` is not the count of wrong-answer submissions. -/
theorem c2_counterexample :
    clickIgnored qCorrectOnly 0 = false ∧
    (qCorrectOnly.opts.get? 0).map QOption.correct = some true ∧
    qCorrectOnly.attempts = 0 ∧
    (handleOptionClick qCorrectOnly 0).attempts = 1 := by
  refine ⟨rfl, rfl, rfl, ?_⟩
  rfl

/-- C4 (confirmed): across any sequence of option clicks, `attempts` never
decreases and `answered` never falls back from true to false. -/
theorem c4_answer_state_monotone (q : Question) (l : List Nat) :
    q.attempts ≤ (runClicks q l).attempts ∧
    (q.answered = true → (runClicks q l).answered = true) :=
  ⟨by rw [runClicks_attempts_eq]; exact Nat.le_add_right _ _,
   fun h => runClicks_answered_mono l q h⟩

/-- An already-answered question used to instantiate claims C4 and C8. -/
def qAnsweredEx : Question :=
  { answered := true, attempts := 1,
    opts := [{ correct := true, userCorrect := false, userIncorrect := false,
               revealedAnswer := false, disabled := false },
             { correct := false, userCorrect := false, userIncorrect := true,
               revealedAnswer := false, disabled := true }],
    hasShowBtn := true, hasExplanation := true, explanationShown := true }

theorem c4_witness :
    qAnsweredEx.attempts ≤ (runClicks qAnsweredEx [0, 1, 0]).attempts ∧
    (qAnsweredEx.answered = true → (runClicks qAnsweredEx [0, 1, 0]).answered = true) :=
  c4_answer_state_monotone qAnsweredEx [0, 1, 0]

/-- C8 (confirmed): a click on an option of an already-answered question, or
on an option already marked user-incorrect, leaves the whole question state —
attempts, answered, every option, explanation visibility — unchanged. -/
theorem c8_ignored_click_no_state_change (q : Question) (i : Nat)
    (h : q.answered = true ∨ ∃ o, q.opts.get? i = some o ∧ o.userIncorrect = true) :
    handleOptionClick q i = q := by
  unfold handleOptionClick
  cases hg : q.opts.get? i with
  | none => rfl
  | some o =>
    simp only
    rw [if_pos]
    rcases h with h | ⟨o2, ho2, hui⟩
    · exact Or.inl h
    · right
      rw [hg] at ho2
      cases ho2
      exact hui

theorem c8_witness :
    handleOptionClick qAnsweredEx 0 = qAnsweredEx ∧ handleOptionClick qAnsweredEx 1 = qAnsweredEx :=
  ⟨c8_ignored_click_no_state_change qAnsweredEx 0 (Or.inl rfl),
   c8_ignored_click_no_state_change qAnsweredEx 1 (Or.inl rfl)⟩

/-- A fresh three-option question (two wrong options then a correct one) used
to instantiate claim C5. -/
def qFreshThree : Question :=
  { answered := false, attempts := 0,
    opts := [{ correct := false, userCorrect := false, userIncorrect := false,
               revealedAnswer := false, disabled := false },
             { correct := false, userCorrect := false, userIncorrect := false,
               revealedAnswer := false, disabled := false },
             { correct := true, userCorrect := false, userIncorrect := false,
               revealedAnswer := false, disabled := false }],
    hasShowBtn := true, hasExplanation := true, explanationShown := false }

/-- The wrong option that claim C5's witness clicks. -/
def optWrongEx : QOption :=
  { correct := false, userCorrect := false, userIncorrect := false,
    revealedAnswer := false, disabled := false }

theorem c5_witness :
    (handleOptionClick qFreshThree 0).attempts = 1 ∧
    ((handleOptionClick qFreshThree 0).opts.get? 0).map QOption.disabled = some true ∧
    (handleOptionClick qFreshThree 0).answered = false ∧
    (handleOptionClick qFreshThree 0).explanationShown = false ∧
    (handleOptionClick (handleOptionClick qFreshThree 0) 1).attempts = 2 ∧
    (handleOptionClick (handleOptionClick qFreshThree 0) 1).answered = true ∧
    ((handleOptionClick (handleOptionClick qFreshThree 0) 1).opts.get? 2).map
      QOption.revealedAnswer = some true ∧
    (handleOptionClick (handleOptionClick qFreshThree 0) 1).explanationShown = true ∧
    ∀ o ∈ (handleOptionClick (handleOptionClick qFreshThree 0) 1).opts, o.disabled = true :=
  c5_two_wrong_clicks qFreshThree 0 1 2 optWrongEx optWrongEx rfl rfl rfl rfl rfl rfl rfl rfl
    (by decide) rfl rfl rfl rfl

/-! ## The view-mode machine and the flat document model -/

/-- A child node of a container element: its identity and whether it carries
the `question` class. -/
structure DNode where
  id : Nat
  isQ : Bool
deriving DecidableEq

/-- A registry entry (`QuestionRef` in the source): the question element, the
index of its `originalParent` container, and the id of its
`originalNextSibling` at scan time, if any. -/
structure QRef where
  elem : DNode
  par : Nat
  nxt : Option Nat
deriving DecidableEq

/-- The three view modes. -/
inductive Mode
  | list
  | single
  | exam
deriving DecidableEq

/-- Detach the node with the given id from every container. -/
def removeNode (doc : List (List DNode)) (x : Nat) : List (List DNode) :=
  doc.map (fun l => l.filter (fun n => decide (n.id ≠ x)))

/-- Replace the child list of container `p` (out-of-range indices leave the
document unchanged; scans only ever produce in-range indices). -/
def modifyP (doc : List (List DNode)) (p : Nat) (f : List DNode → List DNode) :
    List (List DNode) :=
  match doc.get? p with
  | none => doc
  | some l => doc.set p (f l)

/-- `container.innerHTML = ''`: detach every child of container `p`. -/
def clearP (doc : List (List DNode)) (p : Nat) : List (List DNode) :=
  modifyP doc p (fun _ => [])

/-- `parent.appendChild(node)`: detach the node from wherever it currently
is, then append it as the last child of `p`. -/
def appendMove (doc : List (List DNode)) (p : Nat) (x : DNode) : List (List DNode) :=
  modifyP (removeNode doc x.id) p (fun l => l ++ [x])

/-- Insert `x` immediately before the first node with id `r`. -/
def insertBeforeList (x : DNode) (r : Nat) : List DNode → List DNode
  | [] => [x]
  | y :: ys => if y.id = r then x :: y :: ys else y :: insertBeforeList x r ys

/-- `parent.insertBefore(node, ref)` with the WHATWG DOM semantics: a null
`ref` appends; a `ref` that is not currently a child of `parent` makes the
call throw `NotFoundError` (returned as `false`) without changing anything;
otherwise the node is moved to sit immediately before `ref`. -/
def insertBeforeP (doc : List (List DNode)) (p : Nat) (x : DNode) (ref : Option Nat) :
    List (List DNode) × Bool :=
  match ref with
  | none => (appendMove doc p x, true)
  | some r =>
    if ((doc.get? p).getD []).any (fun n => decide (n.id = r)) then
      (modifyP (removeNode doc x.id) p (insertBeforeList x r), true)
    else (doc, false)

/-- Scan one container's children for question elements, recording each with
its next sibling. -/
def scanChildren (p : Nat) : List DNode → List QRef
  | [] => []
  | n :: rest =>
    if n.isQ then { elem := n, par := p, nxt := rest.head?.map DNode.id } :: scanChildren p rest
    else scanChildren p rest

def scanAux (p : Nat) : List (List DNode) → List QRef
  | [] => []
  | l :: rest => scanChildren p l ++ scanAux (p + 1) rest

/-- `document.querySelectorAll('.question')` in document order, each element
paired with its parent and next sibling (the registry built at load). -/
def scanDoc (parents : List (List DNode)) : List QRef := scanAux 0 parents

/-- The host document at load time, as the controller finds it. -/
structure InitDoc where
  parents : List (List DNode)
  sqcIdx : Option Nat
  hasProgress : Bool
  hasPrev : Bool
  hasNext : Bool
  modeBtns : List (Mode × Bool)
deriving DecidableEq

/-- The controller state: the module-level variables of the source plus the
parts of the document the controller reads or writes.  `sqcIdx` is the index
of `#single-question-container` when that element exists. -/
structure St where
  doc : List (List DNode)
  allQuestions : List QRef
  currentQuestionIndex : Nat
  currentMode : Mode
  bodyViewMode : Option Mode
  modeBtns : List (Mode × Bool)
  sqcIdx : Option Nat
  hasProgress : Bool
  hasPrev : Bool
  hasNext : Bool
  progress : String
  prevDisabled : Bool
  nextDisabled : Bool
  errored : Bool
deriving DecidableEq

/-- `renderSingleQuestion`, translated line by line: bail out when a control
is missing or the registry is empty; clear the container; store the index;
fetch the question (an out-of-range fetch throws after the container was
already cleared and the index stored); append it; update the progress text
and the navigation buttons. -/
def renderSingleQuestion (s : St) (index : Nat) : St :=
  match s.sqcIdx with
  | none => s
  | some sq =>
    if s.hasProgress = false ∨ s.hasPrev = false ∨ s.hasNext = false ∨
        s.allQuestions.length = 0 then s
    else
      let s1 : St := { s with doc := clearP s.doc sq, currentQuestionIndex := index }
      match s.allQuestions.get? index with
      | none => { s1 with errored := true }
      | some qr =>
        { s1 with
          doc := appendMove s1.doc sq qr.elem,
          progress := "Soru " ++ toString (index + 1) ++ " / " ++
            toString s.allQuestions.length,
          prevDisabled := decide (index = 0),
          nextDisabled := decide (index = s.allQuestions.length - 1) }

/-- The `forEach` loop of `restoreListView`: process registry entries in
order; a throwing `insertBefore` aborts the remaining iterations, keeping the
mutations already made. -/
def restoreCore : List (List DNode) → List QRef → List (List DNode) × Bool
  | doc, [] => (doc, true)
  | doc, e :: es =>
    match insertBeforeP doc e.par e.elem e.nxt with
    | (d2, true) => restoreCore d2 es
    | (d2, false) => (d2, false)

/-- `restoreListView`: clear the single-question container (when it exists),
then re-insert every registry entry before its recorded next sibling. -/
def restoreListView (s : St) : St :=
  let doc0 := match s.sqcIdx with
    | some sq => clearP s.doc sq
    | none => s.doc
  let res := restoreCore doc0 s.allQuestions
  { s with doc := res.1, errored := s.errored || !res.2 }

/-- `switchMode`: no-op on the current mode; otherwise update the mode, the
body's `data-view-mode` indicator and the `.mode-btn` active classes, then
restore the list or render the current single question. -/
def switchMode (s : St) (newMode : Mode) : St :=
  if s.currentMode = newMode then s
  else
    let s1 : St :=
      { s with
        currentMode := newMode,
        bodyViewMode := some newMode,
        modeBtns := s.modeBtns.map (fun b => (b.1, decide (b.1 = newMode))) }
    if newMode = Mode.list then restoreListView s1
    else renderSingleQuestion s1 s1.currentQuestionIndex

/-- The click handler of `#prev-question-btn` (attached only when the button
exists; it does not check the mode). -/
def prevClick (s : St) : St :=
  if s.hasPrev = true ∧ 0 < s.currentQuestionIndex then
    renderSingleQuestion s (s.currentQuestionIndex - 1)
  else s

/-- The click handler of `#next-question-btn`. -/
def nextClick (s : St) : St :=
  if s.hasNext = true ∧ s.currentQuestionIndex < s.allQuestions.length - 1 then
    renderSingleQuestion s (s.currentQuestionIndex + 1)
  else s

/-- The events that can reach the view-mode machine.  Option clicks touch
only the per-question state modelled above and never read or write the mode,
the index or the document structure, so they are not part of this state
space. -/
inductive Ev
  | mode (m : Mode)
  | prev
  | next
deriving DecidableEq

def step (s : St) (e : Ev) : St :=
  match e with
  | .mode m => switchMode s m
  | .prev => prevClick s
  | .next => nextClick s

/-- The state right after the `DOMContentLoaded` handler ran. -/
def initSt (d : InitDoc) : St :=
  { doc := d.parents, allQuestions := scanDoc d.parents, currentQuestionIndex := 0,
    currentMode := Mode.list, bodyViewMode := none, modeBtns := d.modeBtns,
    sqcIdx := d.sqcIdx, hasProgress := d.hasProgress, hasPrev := d.hasPrev,
    hasNext := d.hasNext, progress := "", prevDisabled := false, nextDisabled := false,
    errored := false }

def run (d : InitDoc) (evs : List Ev) : St := evs.foldl step (initSt d)

/-- All node ids in the document are pairwise distinct. -/
def idsNodup (parents : List (List DNode)) : Prop :=
  (parents.flatten.map DNode.id).Nodup

/-- Wellformed initial document: distinct ids, and the single-question
container (when present) is one of the containers. -/
def docWF (d : InitDoc) : Prop :=
  idsNodup d.parents ∧ ∀ sq, d.sqcIdx = some sq → sq < d.parents.length

/-- No question element lies inside the single-question container at load
time. -/
def separated (d : InitDoc) : Prop :=
  ∀ e ∈ scanDoc d.parents, some e.par ≠ d.sqcIdx

/-- The document-order list of question-element ids. -/
def questionOrder (doc : List (List DNode)) : List Nat :=
  (doc.flatten.filter (fun n => n.isQ)).map DNode.id

/-- `x` occurs in the child list with its recorded next sibling immediately
after it (or as the last child when the record is `none`). -/
def placedIn (x : DNode) (nxt : Option Nat) : List DNode → Bool
  | [] => false
  | y :: rest =>
    if y = x then decide (rest.head?.map DNode.id = nxt) else placedIn x nxt rest

/-- The entry's element is attached under its original parent at its original
relative position. -/
def placedOK (doc : List (List DNode)) (e : QRef) : Bool :=
  match doc.get? e.par with
  | none => false
  | some l => placedIn e.elem e.nxt l

/-! ### Frame lemmas for the view-mode machine -/

theorem renderSingleQuestion_allQuestions (s : St) (index : Nat) :
    (renderSingleQuestion s index).allQuestions = s.allQuestions := by
  unfold renderSingleQuestion
  cases s.sqcIdx with
  | none => rfl
  | some sq =>
    simp only
    split
    · rfl
    · cases s.allQuestions.get? index <;> rfl

theorem restoreListView_allQuestions (s : St) :
    (restoreListView s).allQuestions = s.allQuestions := rfl

theorem restoreListView_currentQuestionIndex (s : St) :
    (restoreListView s).currentQuestionIndex = s.currentQuestionIndex := rfl

theorem switchMode_allQuestions (s : St) (m : Mode) :
    (switchMode s m).allQuestions = s.allQuestions := by
  unfold switchMode
  split
  · rfl
  · split
    · exact restoreListView_allQuestions _
    · exact renderSingleQuestion_allQuestions _ _

theorem step_allQuestions (s : St) (e : Ev) : (step s e).allQuestions = s.allQuestions := by
  cases e with
  | mode m => exact switchMode_allQuestions s m
  | prev =>
    show (prevClick s).allQuestions = s.allQuestions
    unfold prevClick
    split
    · exact renderSingleQuestion_allQuestions _ _
    · rfl
  | next =>
    show (nextClick s).allQuestions = s.allQuestions
    unfold nextClick
    split
    · exact renderSingleQuestion_allQuestions _ _
    · rfl

/-- `renderSingleQuestion` either leaves the index alone (precondition
failure) or stores exactly the requested index, and the registry was
non-empty in the latter case. -/
theorem renderSingleQuestion_idx (s : St) (index : Nat) :
    (renderSingleQuestion s index).currentQuestionIndex = s.currentQuestionIndex ∨
    ((renderSingleQuestion s index).currentQuestionIndex = index ∧
      0 < s.allQuestions.length) := by
  unfold renderSingleQuestion
  cases s.sqcIdx with
  | none => exact Or.inl rfl
  | some sq =>
    simp only
    split
    · exact Or.inl rfl
    · rename_i hcond
      have hlen : 0 < s.allQuestions.length := by
        rcases Nat.eq_zero_or_pos s.allQuestions.length with h0 | h1
        · exact absurd (Or.inr (Or.inr (Or.inr h0))) hcond
        · exact h1
      cases s.allQuestions.get? index
      · exact Or.inr ⟨rfl, hlen⟩
      · exact Or.inr ⟨rfl, hlen⟩

/-! ### Claims about rendering and mode switching -/

/-- C6 (confirmed): after `renderSingleQuestion i` runs with a non-empty
registry and all controls present, the previous button is disabled exactly
when `i = 0` and the next button exactly when `i` is the last index; for a
one-question registry both are disabled at once. -/
theorem c6_navigation_bounds (s : St) (index sq : Nat)
    (hsq : s.sqcIdx = some sq) (hp : s.hasProgress = true) (hv : s.hasPrev = true)
    (hn : s.hasNext = true) (hi : index < s.allQuestions.length) :
    ((renderSingleQuestion s index).prevDisabled = true ↔ index = 0) ∧
    ((renderSingleQuestion s index).nextDisabled = true ↔
      index = s.allQuestions.length - 1) ∧
    (s.allQuestions.length = 1 →
      (renderSingleQuestion s index).prevDisabled = true ∧
      (renderSingleQuestion s index).nextDisabled = true) := by
  have hlen : 0 < s.allQuestions.length := Nat.lt_of_le_of_lt (Nat.zero_le _) hi
  have hcond : ¬(s.hasProgress = false ∨ s.hasPrev = false ∨ s.hasNext = false ∨
      s.allQuestions.length = 0) := by
    intro h
    rcases h with h | h | h | h
    · rw [hp] at h; cases h
    · rw [hv] at h; cases h
    · rw [hn] at h; cases h
    · omega
  obtain ⟨qr, hqr⟩ : ∃ qr, s.allQuestions.get? index = some qr := by
    rw [List.get?_eq_get hi]
    exact ⟨_, rfl⟩
  have hrender : renderSingleQuestion s index =
      { s with
        doc := appendMove (clearP s.doc sq) sq qr.elem,
        currentQuestionIndex := index,
        progress := "Soru " ++ toString (index + 1) ++ " / " ++
          toString s.allQuestions.length,
        prevDisabled := decide (index = 0),
        nextDisabled := decide (index = s.allQuestions.length - 1) } := by
    unfold renderSingleQuestion
    rw [hsq]
    simp only
    rw [if_neg hcond, hqr]
  rw [hrender]
  refine ⟨?_, ?_, ?_⟩
  · show decide (index = 0) = true ↔ index = 0
    exact decide_eq_true_iff
  · show decide (index = s.allQuestions.length - 1) = true ↔ _
    exact decide_eq_true_iff
  · intro h1
    constructor
    · show decide (index = 0) = true
      rw [h1] at hi
      have : index = 0 := by omega
      rw [this]
      rfl
    · show decide (index = s.allQuestions.length - 1) = true
      rw [h1] at hi ⊢
      have : index = 0 := by omega
      rw [this]
      rfl

/-- A one-question document with all controls present, used to instantiate
claim C6. -/
def c6doc : InitDoc :=
  { parents := [[], [{ id := 1, isQ := true }]], sqcIdx := some 0,
    hasProgress := true, hasPrev := true, hasNext := true, modeBtns := [] }

theorem c6_witness :
    ((renderSingleQuestion (initSt c6doc) 0).prevDisabled = true ↔ 0 = 0) ∧
    ((renderSingleQuestion (initSt c6doc) 0).nextDisabled = true ↔
      0 = (initSt c6doc).allQuestions.length - 1) ∧
    ((initSt c6doc).allQuestions.length = 1 →
      (renderSingleQuestion (initSt c6doc) 0).prevDisabled = true ∧
      (renderSingleQuestion (initSt c6doc) 0).nextDisabled = true) :=
  c6_navigation_bounds (initSt c6doc) 0 0 rfl rfl rfl rfl (by decide)

/-- C10 (confirmed): switching into Single or Exam while the render
preconditions fail (no container, missing control, or empty registry) still
updates the mode, the body's mode indicator and the mode buttons' active
states, and changes nothing else — `renderSingleQuestion` silently does
nothing, so no question element is moved to the display surface. -/
theorem c10_mode_change_without_render (s : St) (m : Mode)
    (hm : m ≠ Mode.list) (hcur : s.currentMode ≠ m)
    (hfail : s.sqcIdx = none ∨ s.hasProgress = false ∨ s.hasPrev = false ∨
      s.hasNext = false ∨ s.allQuestions.length = 0) :
    switchMode s m =
      { s with
        currentMode := m,
        bodyViewMode := some m,
        modeBtns := s.modeBtns.map (fun b => (b.1, decide (b.1 = m))) } := by
  unfold switchMode
  rw [if_neg hcur, if_neg hm]
  unfold renderSingleQuestion
  simp only
  rcases hfail with h | h
  · rw [h]
  · cases hsq : s.sqcIdx with
    | none => rfl
    | some sq =>
      simp only
      rw [if_pos]
      exact h

/-- A document with the previous-question button missing, used to instantiate
claim C10. -/
def c10doc : InitDoc :=
  { parents := [[], [{ id := 1, isQ := true }]], sqcIdx := some 0,
    hasProgress := true, hasPrev := false, hasNext := true,
    modeBtns := [(Mode.list, true), (Mode.single, false), (Mode.exam, false)] }

theorem c10_witness :
    switchMode (initSt c10doc) Mode.exam =
      { initSt c10doc with
        currentMode := Mode.exam,
        bodyViewMode := some Mode.exam,
        modeBtns := (initSt c10doc).modeBtns.map
          (fun b => (b.1, decide (b.1 = Mode.exam))) } :=
  c10_mode_change_without_render (initSt c10doc) Mode.exam (by decide) (by decide)
    (Or.inr (Or.inr (Or.inl rfl)))

/-- A document with no questions at all but with every control present, used
to refute claim C9 as stated. -/
def c9doc : InitDoc :=
  { parents := [[]], sqcIdx := some 0, hasProgress := true, hasPrev := true,
    hasNext := true, modeBtns := [] }

/-- C9 counterexample: switching into Single with an empty registry leaves
`currentIndex = 0`, which does not lie in the empty interval
`[0, registry.length) = [0, 0)`. -/
theorem c9_counterexample :
    (run c9doc [Ev.mode Mode.single]).currentMode ≠ Mode.list ∧
    (run c9doc [Ev.mode Mode.single]).allQuestions.length = 0 ∧
    ¬ ((run c9doc [Ev.mode Mode.single]).currentQuestionIndex <
        (run c9doc [Ev.mode Mode.single]).allQuestions.length) := by
  refine ⟨by decide, rfl, by decide⟩

/-- The index invariant maintained by every handler. -/
def IdxInv (s : St) : Prop :=
  (s.allQuestions.length = 0 → s.currentQuestionIndex = 0) ∧
  (0 < s.allQuestions.length → s.currentQuestionIndex < s.allQuestions.length)

theorem renderSingleQuestion_IdxInv (s : St) (i : Nat) (hinv : IdxInv s)
    (hi : 0 < s.allQuestions.length → i < s.allQuestions.length) :
    IdxInv (renderSingleQuestion s i) := by
  constructor <;> rw [renderSingleQuestion_allQuestions]
  · intro h0
    rcases renderSingleQuestion_idx s i with h | ⟨h, hlen⟩
    · rw [h]; exact hinv.1 h0
    · omega
  · intro hlen
    rcases renderSingleQuestion_idx s i with h | ⟨h, _⟩
    · rw [h]; exact hinv.2 hlen
    · rw [h]; exact hi hlen

theorem step_IdxInv (s : St) (e : Ev) (hinv : IdxInv s) : IdxInv (step s e) := by
  cases e with
  | mode m =>
    show IdxInv (switchMode s m)
    unfold switchMode
    by_cases hc : s.currentMode = m
    · rw [if_pos hc]; exact hinv
    · rw [if_neg hc]
      by_cases hl : m = Mode.list
      · rw [if_pos hl]
        constructor
        · rw [restoreListView_allQuestions, restoreListView_currentQuestionIndex]
          exact hinv.1
        · rw [restoreListView_allQuestions, restoreListView_currentQuestionIndex]
          exact hinv.2
      · rw [if_neg hl]
        exact renderSingleQuestion_IdxInv _ _ hinv (fun hlen => hinv.2 hlen)
  | prev =>
    show IdxInv (prevClick s)
    unfold prevClick
    split
    · rename_i hcond
      refine renderSingleQuestion_IdxInv _ _ hinv (fun hlen => ?_)
      have := hinv.2 hlen
      omega
    · exact hinv
  | next =>
    show IdxInv (nextClick s)
    unfold nextClick
    split
    · rename_i hcond
      refine renderSingleQuestion_IdxInv _ _ hinv (fun hlen => ?_)
      omega
    · exact hinv

theorem run_IdxInv (d : InitDoc) (evs : List Ev) : IdxInv (run d evs) := by
  suffices h : ∀ (l : List Ev) (s : St), IdxInv s → IdxInv (l.foldl step s) by
    exact h evs (initSt d) ⟨fun _ => rfl, fun h => h⟩
  intro l
  induction l with
  | nil => exact fun s hs => hs
  | cons e rest ih => exact fun s hs => ih (step s e) (step_IdxInv s e hs)

/-- C9 (corrected): in every reachable state — whatever the mode — the
current index is strictly below the registry length whenever the registry is
non-empty, and equals 0 when the registry is empty; with an empty registry it
therefore cannot lie in the empty interval `[0, 0)`. -/
theorem c9_index_bounds (d : InitDoc) (evs : List Ev) :
    ((run d evs).allQuestions.length = 0 → (run d evs).currentQuestionIndex = 0) ∧
    (0 < (run d evs).allQuestions.length →
      (run d evs).currentQuestionIndex < (run d evs).allQuestions.length) :=
  run_IdxInv d evs

theorem c9_witness :
    ((run c9doc [Ev.mode Mode.single]).allQuestions.length = 0 →
      (run c9doc [Ev.mode Mode.single]).currentQuestionIndex = 0) ∧
    (0 < (run c9doc [Ev.mode Mode.single]).allQuestions.length →
      (run c9doc [Ev.mode Mode.single]).currentQuestionIndex <
        (run c9doc [Ev.mode Mode.single]).allQuestions.length) :=
  c9_index_bounds c9doc [Ev.mode Mode.single]

/-! ### List utilities for the restoration proofs -/

/-- Erase from a child list every node whose id lies in `R` (the questions
currently detached or re-parented elsewhere). -/
def eraseIds (R : List Nat) (l : List DNode) : List DNode :=
  l.filter (fun n => decide (n.id ∉ R))

theorem eraseIds_nil (l : List DNode) : eraseIds [] l = l := by
  unfold eraseIds
  rw [List.filter_eq_self]
  intro a _
  simp

theorem eraseIds_eq_self (R : List Nat) (l : List DNode) (h : ∀ i ∈ R, False) :
    eraseIds R l = l := by
  unfold eraseIds
  rw [List.filter_eq_self]
  intro a _
  simp only [decide_eq_true_eq]
  intro hmem
  exact h _ hmem

theorem eraseIds_append (R : List Nat) (l1 l2 : List DNode) :
    eraseIds R (l1 ++ l2) = eraseIds R l1 ++ eraseIds R l2 :=
  List.filter_append l1 l2

theorem eraseIds_cons_mem (R : List Nat) (x : DNode) (l : List DNode) (h : x.id ∈ R) :
    eraseIds R (x :: l) = eraseIds R l := by
  unfold eraseIds
  rw [List.filter_cons]
  simp [h]

theorem eraseIds_cons_not_mem (R : List Nat) (x : DNode) (l : List DNode) (h : x.id ∉ R) :
    eraseIds R (x :: l) = x :: eraseIds R l := by
  unfold eraseIds
  rw [List.filter_cons]
  simp [h]

theorem eraseIds_congr (R1 R2 : List Nat) (l : List DNode)
    (h : ∀ n ∈ l, n.id ∈ R1 ↔ n.id ∈ R2) : eraseIds R1 l = eraseIds R2 l := by
  unfold eraseIds
  apply List.filter_congr
  intro a ha
  simp only [decide_eq_decide]
  rw [h a ha]

theorem eraseIds_filter_ne (R : List Nat) (l : List DNode) (x : Nat) :
    (eraseIds R l).filter (fun n => decide (n.id ≠ x)) = eraseIds (x :: R) l := by
  induction l with
  | nil => rfl
  | cons y ys ih =>
    by_cases hy : y.id ∈ R
    · rw [eraseIds_cons_mem _ _ _ hy, eraseIds_cons_mem _ _ _ (List.mem_cons_of_mem x hy), ih]
    · rw [eraseIds_cons_not_mem _ _ _ hy, List.filter_cons]
      by_cases hx : y.id = x
      · rw [eraseIds_cons_mem _ _ _ (by rw [hx]; exact List.mem_cons_self x R),
          if_neg (by simp [hx]), ih]
      · rw [eraseIds_cons_not_mem _ _ _ (by simp [hx, hy]), if_pos (by simp [hx]), ih]

theorem eraseIds_id_not_mem (R : List Nat) (l : List DNode) (n : DNode)
    (hn : n ∈ eraseIds R l) : n ∈ l ∧ n.id ∉ R := by
  unfold eraseIds at hn
  rw [List.mem_filter] at hn
  refine ⟨hn.1, ?_⟩
  have := hn.2
  simpa using this

theorem mem_eraseIds (R : List Nat) (l : List DNode) (n : DNode)
    (hn : n ∈ l) (hid : n.id ∉ R) : n ∈ eraseIds R l := by
  unfold eraseIds
  rw [List.mem_filter]
  exact ⟨hn, by simpa using hid⟩

/-- Splitting a list at a fixed occurrence is unique when the list has no
duplicates. -/
theorem nodup_split_unique {α : Type} (x : α) :
    ∀ (a1 b1 a2 b2 : List α), (a1 ++ x :: b1).Nodup → a1 ++ x :: b1 = a2 ++ x :: b2 →
      a1 = a2 ∧ b1 = b2 := by
  intro a1
  induction a1 with
  | nil =>
    intro b1 a2 b2 hn h
    rw [List.nil_append] at h hn
    cases a2 with
    | nil =>
      rw [List.nil_append] at h
      obtain ⟨-, h2⟩ := List.cons.inj h
      exact ⟨rfl, h2⟩
    | cons y a2t =>
      rw [List.cons_append] at h
      obtain ⟨rfl, h2⟩ := List.cons.inj h
      rw [List.nodup_cons] at hn
      exact absurd (h2 ▸ List.mem_append_right a2t (List.mem_cons_self x b2)) hn.1
  | cons y a1t ih =>
    intro b1 a2 b2 hn h
    rw [List.cons_append] at h hn
    cases a2 with
    | nil =>
      rw [List.nil_append] at h
      obtain ⟨rfl, h2⟩ := List.cons.inj h
      rw [List.nodup_cons] at hn
      exact absurd (h2.symm ▸ List.mem_append_right a1t (List.mem_cons_self y b1)) hn.1
    | cons z a2t =>
      rw [List.cons_append] at h
      obtain ⟨rfl, h2⟩ := List.cons.inj h
      rw [List.nodup_cons] at hn
      obtain ⟨h3, h4⟩ := ih b1 a2t b2 hn.2 h2
      exact ⟨by rw [h3], h4⟩

theorem last_eq_of_concat_eq {α : Type} (x y : α) (l1 l2 : List α)
    (h : l1 ++ [x] = l2 ++ [y]) : x = y := by
  have := congrArg List.getLast? h
  rw [List.getLast?_concat, List.getLast?_concat] at this
  exact Option.some.inj this

/-- Insert before the unique occurrence of id `r`. -/
theorem insertBeforeList_spec (x rnode : DNode) (r : Nat) (A B : List DNode)
    (hr : rnode.id = r) (hA : ∀ y ∈ A, y.id ≠ r) :
    insertBeforeList x r (A ++ rnode :: B) = A ++ x :: rnode :: B := by
  induction A with
  | nil =>
    simp only [List.nil_append]
    unfold insertBeforeList
    rw [if_pos hr]
  | cons y ys ih =>
    simp only [List.cons_append]
    unfold insertBeforeList
    rw [if_neg (hA y (List.mem_cons_self y ys))]
    rw [ih (fun z hz => hA z (List.mem_cons_of_mem y hz))]

/-! ### Document access lemmas -/

theorem modifyP_length (doc : List (List DNode)) (p : Nat) (f : List DNode → List DNode) :
    (modifyP doc p f).length = doc.length := by
  unfold modifyP
  cases doc.get? p with
  | none => rfl
  | some l => exact List.length_set doc p (f l)

theorem modifyP_get?_eq (doc : List (List DNode)) (p : Nat) (f : List DNode → List DNode)
    (l : List DNode) (h : doc.get? p = some l) : (modifyP doc p f).get? p = some (f l) := by
  unfold modifyP
  rw [h]
  have hp : p < doc.length := by
    by_contra hge
    rw [List.get?_eq_none.mpr (Nat.le_of_not_lt hge)] at h
    cases h
  exact List.get?_set_eq_of_lt (f l) hp

theorem modifyP_get?_ne (doc : List (List DNode)) (p q : Nat) (f : List DNode → List DNode)
    (h : p ≠ q) : (modifyP doc p f).get? q = doc.get? q := by
  unfold modifyP
  cases doc.get? p with
  | none => rfl
  | some l => exact List.get?_set_ne (f l) doc h

theorem removeNode_length (doc : List (List DNode)) (x : Nat) :
    (removeNode doc x).length = doc.length := List.length_map doc _

theorem removeNode_get? (doc : List (List DNode)) (x : Nat) (p : Nat) :
    (removeNode doc x).get? p =
      (doc.get? p).map (fun l => l.filter (fun n => decide (n.id ≠ x))) :=
  List.get?_map _ doc p

theorem clearP_get?_eq (doc : List (List DNode)) (p : Nat) (l : List DNode)
    (h : doc.get? p = some l) : (clearP doc p).get? p = some [] :=
  modifyP_get?_eq doc p _ l h

theorem clearP_get?_ne (doc : List (List DNode)) (p q : Nat) (h : p ≠ q) :
    (clearP doc p).get? q = doc.get? q :=
  modifyP_get?_ne doc p q _ h

theorem clearP_length (doc : List (List DNode)) (p : Nat) :
    (clearP doc p).length = doc.length := modifyP_length doc p _

/-! ### Consequences of globally distinct ids -/

theorem drop_cons_of_get? {α : Type} :
    ∀ (D : List α) (p : Nat) (l : α), D.get? p = some l → D.drop p = l :: D.drop (p + 1) := by
  intro D
  induction D with
  | nil => intro p l h; cases p <;> cases h
  | cons a as ih =>
    intro p l h
    cases p with
    | zero => cases h; rfl
    | succ p =>
      rw [List.drop_succ_cons]
      exact ih p l h

theorem list_decomp_of_get? {α : Type} (D : List α) (p : Nat) (l : α)
    (h : D.get? p = some l) : D = D.take p ++ l :: D.drop (p + 1) := by
  have h2 := drop_cons_of_get? D p l h
  rw [← h2, List.take_append_drop]

/-- Ids are distinct inside any one container. -/
theorem within_ids_nodup (D : List (List DNode)) (hWF : idsNodup D) (p : Nat)
    (l : List DNode) (h : D.get? p = some l) : (l.map DNode.id).Nodup := by
  unfold idsNodup at hWF
  have hd := list_decomp_of_get? D p l h
  rw [hd, List.flatten_append, List.flatten_cons, List.map_append, List.map_append] at hWF
  have h1 := (List.nodup_append.mp hWF).2.1
  exact (List.nodup_append.mp h1).1

theorem mem_flatten_of_get? (D : List (List DNode)) (p : Nat) (l : List DNode)
    (h : D.get? p = some l) (n : DNode) (hn : n ∈ l) : n ∈ D.flatten := by
  rw [List.mem_flatten]
  exact ⟨l, List.get?_mem h, hn⟩

/-- Two nodes with the same id in the (wellformed) document coincide. -/
theorem same_id_same_node (D : List (List DNode)) (hWF : idsNodup D)
    (x y : DNode) (hx : x ∈ D.flatten) (hy : y ∈ D.flatten) (h : x.id = y.id) : x = y :=
  List.inj_on_of_nodup_map hWF hx hy h

theorem cross_ids_ne_lt (D : List (List DNode)) (hWF : idsNodup D)
    (p1 p2 : Nat) (l1 l2 : List DNode) (h1 : D.get? p1 = some l1) (h2 : D.get? p2 = some l2)
    (hlt : p1 < p2) (x y : DNode) (hx : x ∈ l1) (hy : y ∈ l2) : x.id ≠ y.id := by
  have hd := list_decomp_of_get? D p1 l1 h1
  have h2d : (D.drop (p1 + 1)).get? (p2 - (p1 + 1)) = some l2 := by
    rw [List.get?_drop, Nat.add_sub_cancel' hlt]
    exact h2
  have hy2 : y ∈ (D.drop (p1 + 1)).flatten :=
    mem_flatten_of_get? _ _ _ h2d y hy
  unfold idsNodup at hWF
  rw [hd, List.flatten_append, List.flatten_cons, List.map_append, List.map_append] at hWF
  have hdisj := (List.nodup_append.mp (List.nodup_append.mp hWF).2.1).2.2
  intro heq
  exact hdisj (List.mem_map_of_mem DNode.id hx) (heq ▸ List.mem_map_of_mem DNode.id hy2)

/-- Nodes of distinct containers have distinct ids. -/
theorem cross_ids_ne (D : List (List DNode)) (hWF : idsNodup D)
    (p1 p2 : Nat) (l1 l2 : List DNode) (h1 : D.get? p1 = some l1) (h2 : D.get? p2 = some l2)
    (hp : p1 ≠ p2) (x y : DNode) (hx : x ∈ l1) (hy : y ∈ l2) : x.id ≠ y.id := by
  rcases Nat.lt_or_ge p1 p2 with hlt | hge
  · exact cross_ids_ne_lt D hWF p1 p2 l1 l2 h1 h2 hlt x y hx hy
  · have hlt2 : p2 < p1 := Nat.lt_of_le_of_ne hge (Ne.symm hp)
    exact (cross_ids_ne_lt D hWF p2 p1 l2 l1 h2 h1 hlt2 y x hy hx).symm

/-! ### Properties of the registry scan -/

theorem scanChildren_mem_shape (p : Nat) :
    ∀ (l : List DNode) (e : QRef), e ∈ scanChildren p l →
      e.par = p ∧ e.elem.isQ = true ∧
      ∃ l1 l2, l = l1 ++ e.elem :: l2 ∧ e.nxt = l2.head?.map DNode.id := by
  intro l
  induction l with
  | nil => intro e h; cases h
  | cons n rest ih =>
    intro e h
    unfold scanChildren at h
    by_cases hq : n.isQ
    · rw [if_pos hq] at h
      rcases List.mem_cons.mp h with heq | hmem
      · subst heq
        exact ⟨rfl, hq, [], rest, rfl, rfl⟩
      · obtain ⟨hp, hqq, l1, l2, hl, hn⟩ := ih e hmem
        exact ⟨hp, hqq, n :: l1, l2, by rw [List.cons_append, hl], hn⟩
    · rw [if_neg hq] at h
      obtain ⟨hp, hqq, l1, l2, hl, hn⟩ := ih e h
      exact ⟨hp, hqq, n :: l1, l2, by rw [List.cons_append, hl], hn⟩

theorem scanChildren_map_elem (p : Nat) :
    ∀ l : List DNode, (scanChildren p l).map QRef.elem = l.filter (fun n => n.isQ) := by
  intro l
  induction l with
  | nil => rfl
  | cons n rest ih =>
    unfold scanChildren
    rw [List.filter_cons]
    by_cases hq : n.isQ
    · rw [if_pos hq]
      simp only [hq, if_true, List.map_cons, ih]
    · rw [if_neg hq]
      simp only [hq, Bool.false_eq_true, if_false, ih]

theorem scanAux_map_elem :
    ∀ (ls : List (List DNode)) (p : Nat),
      (scanAux p ls).map QRef.elem = (ls.map (fun l => l.filter (fun n => n.isQ))).flatten := by
  intro ls
  induction ls with
  | nil => intro p; rfl
  | cons l rest ih =>
    intro p
    show (scanChildren p l ++ scanAux (p + 1) rest).map QRef.elem = _
    rw [List.map_append, scanChildren_map_elem, ih (p + 1)]
    rfl

theorem scanDoc_map_elem (D : List (List DNode)) :
    (scanDoc D).map QRef.elem = D.flatten.filter (fun n => n.isQ) := by
  rw [scanDoc, scanAux_map_elem, List.filter_flatten]

theorem scan_ids_nodup (D : List (List DNode)) (hWF : idsNodup D) :
    ((scanDoc D).map (fun e => e.elem.id)).Nodup := by
  have h1 : (scanDoc D).map (fun e => e.elem.id) =
      ((scanDoc D).map QRef.elem).map DNode.id := by
    rw [List.map_map]
    rfl
  rw [h1, scanDoc_map_elem]
  exact List.Nodup.sublist ((List.filter_sublist D.flatten).map DNode.id) hWF

theorem scan_nodup (D : List (List DNode)) (hWF : idsNodup D) : (scanDoc D).Nodup :=
  (scan_ids_nodup D hWF).of_map _

theorem scanAux_mem :
    ∀ (ls : List (List DNode)) (p : Nat) (e : QRef), e ∈ scanAux p ls →
      ∃ q l, ls.get? q = some l ∧ e ∈ scanChildren (p + q) l := by
  intro ls
  induction ls with
  | nil => intro p e h; cases h
  | cons l rest ih =>
    intro p e h
    rcases List.mem_append.mp h with h1 | h2
    · exact ⟨0, l, rfl, by rw [Nat.add_zero]; exact h1⟩
    · obtain ⟨q, l2, hget, hmem⟩ := ih (p + 1) e h2
      refine ⟨q + 1, l2, hget, ?_⟩
      have : p + (q + 1) = p + 1 + q := by omega
      rw [this]
      exact hmem

/-- Shape of a registry entry: its element sits in its recorded parent with
the recorded next sibling immediately after it. -/
theorem scanDoc_mem_shape (D : List (List DNode)) (e : QRef) (he : e ∈ scanDoc D) :
    ∃ l l1 l2, D.get? e.par = some l ∧ l = l1 ++ e.elem :: l2 ∧
      e.nxt = l2.head?.map DNode.id ∧ e.elem.isQ = true := by
  obtain ⟨q, l, hget, hmem⟩ := scanAux_mem D 0 e he
  obtain ⟨hp, hq, l1, l2, hl, hn⟩ := scanChildren_mem_shape (0 + q) l e hmem
  rw [Nat.zero_add] at hp
  exact ⟨l, l1, l2, by rw [hp]; exact hget, hl, hn, hq⟩

theorem scanAux_par_ge (ls : List (List DNode)) (p : Nat) (e : QRef)
    (h : e ∈ scanAux p ls) : p ≤ e.par := by
  obtain ⟨q, l, _, hmem⟩ := scanAux_mem ls p e h
  rw [(scanChildren_mem_shape (p + q) l e hmem).1]
  omega

theorem scanAux_par_lt (ls : List (List DNode)) (p : Nat) (e : QRef)
    (h : e ∈ scanAux p ls) : e.par < p + ls.length := by
  obtain ⟨q, l, hget, hmem⟩ := scanAux_mem ls p e h
  rw [(scanChildren_mem_shape (p + q) l e hmem).1]
  have : q < ls.length := by
    by_contra hge
    rw [List.get?_eq_none.mpr (Nat.le_of_not_lt hge)] at hget
    cases hget
  omega

theorem scanAux_decomp :
    ∀ (ls : List (List DNode)) (p q : Nat) (l : List DNode), ls.get? q = some l →
      scanAux p ls = scanAux p (ls.take q) ++ scanChildren (p + q) l ++
        scanAux (p + q + 1) (ls.drop (q + 1)) := by
  intro ls
  induction ls with
  | nil => intro p q l h; cases q <;> cases h
  | cons a as ih =>
    intro p q l h
    cases q with
    | zero =>
      have ha : a = l := Option.some.inj h
      subst ha
      show scanChildren p a ++ scanAux (p + 1) as = _
      rw [List.take_zero, Nat.add_zero]
      have hd : (a :: as).drop (0 + 1) = as := rfl
      rw [hd]
      rfl
    | succ q =>
      have hstep : scanAux p (a :: as) = scanChildren p a ++ scanAux (p + 1) as := rfl
      have hstep2 : scanAux p (a :: as.take q) =
          scanChildren p a ++ scanAux (p + 1) (as.take q) := rfl
      rw [List.take_succ_cons, List.drop_succ_cons, hstep, ih (p + 1) q l h]
      have h1 : p + (q + 1) = p + 1 + q := by omega
      rw [h1, hstep2]
      simp only [List.append_assoc]

/-- Scanning filtered to one parent index gives exactly that container's
block of entries. -/
theorem scanDoc_filter_par (D : List (List DNode)) (s0 : Nat) (l : List DNode)
    (hget : D.get? s0 = some l) :
    (scanDoc D).filter (fun e => decide (e.par = s0)) = scanChildren s0 l := by
  rw [scanDoc, scanAux_decomp D 0 s0 l hget, List.filter_append, List.filter_append]
  have h1 : (scanAux 0 (D.take s0)).filter (fun e => decide (e.par = s0)) = [] := by
    rw [List.filter_eq_nil_iff]
    intro e he
    have := scanAux_par_lt (D.take s0) 0 e he
    have hlen : (D.take s0).length ≤ s0 := by
      rw [List.length_take]
      omega
    simp only [decide_eq_true_eq]
    omega
  have h2 : (scanChildren (0 + s0) l).filter (fun e => decide (e.par = s0)) =
      scanChildren (0 + s0) l := by
    rw [List.filter_eq_self]
    intro e he
    have := (scanChildren_mem_shape (0 + s0) l e he).1
    simp only [decide_eq_true_eq]
    omega
  have h3 : (scanAux (0 + s0 + 1) (D.drop (s0 + 1))).filter
      (fun e => decide (e.par = s0)) = [] := by
    rw [List.filter_eq_nil_iff]
    intro e he
    have := scanAux_par_ge (D.drop (s0 + 1)) (0 + s0 + 1) e he
    simp only [decide_eq_true_eq]
    omega
  rw [h1, h2, h3, List.nil_append, List.append_nil, Nat.zero_add]

theorem scanChildren_cons_q (p : Nat) (n : DNode) (rest : List DNode) (h : n.isQ = true) :
    scanChildren p (n :: rest) =
      { elem := n, par := p, nxt := rest.head?.map DNode.id } :: scanChildren p rest := by
  unfold scanChildren
  rw [if_pos h]
  cases rest <;> rfl

theorem scanChildren_cons_nq (p : Nat) (n : DNode) (rest : List DNode) (h : ¬ n.isQ = true) :
    scanChildren p (n :: rest) = scanChildren p rest := by
  unfold scanChildren
  rw [if_neg h]
  cases rest <;> rfl

/-- Two adjacent question nodes scan to two adjacent entries. -/
theorem scanChildren_adjacent (p : Nat) (x y : DNode) (hx : x.isQ = true)
    (hy : y.isQ = true) :
    ∀ (l1 l2 : List DNode), ∃ E, scanChildren p (l1 ++ x :: y :: l2) =
      E ++ { elem := x, par := p, nxt := some y.id } ::
        { elem := y, par := p, nxt := l2.head?.map DNode.id } :: scanChildren p l2 := by
  intro l1
  induction l1 with
  | nil =>
    intro l2
    refine ⟨[], ?_⟩
    rw [List.nil_append, List.nil_append, scanChildren_cons_q p x _ hx,
      scanChildren_cons_q p y _ hy]
    rfl
  | cons z zs ih =>
    intro l2
    obtain ⟨E, hE⟩ := ih l2
    rw [List.cons_append]
    by_cases hz : z.isQ
    · refine ⟨({ elem := z, par := p, nxt := (zs ++ x :: y :: l2).head?.map DNode.id } :
        QRef) :: E, ?_⟩
      rw [scanChildren_cons_q p z _ hz, hE]
      rfl
    · refine ⟨E, ?_⟩
      rw [scanChildren_cons_nq p z _ hz, hE]

/-- If entry `e` records entry `f`'s element as its next sibling, then `f`
occurs strictly after `e` in the scan (next siblings point forward in
document order). -/
theorem scan_ref_comes_later (D : List (List DNode)) (hWF : idsNodup D)
    (e f : QRef) (pre rest : List QRef)
    (hsplit : scanDoc D = pre ++ e :: rest) (hf : f ∈ scanDoc D)
    (hnxt : e.nxt = some f.elem.id) : f ∈ rest := by
  have he : e ∈ scanDoc D := by
    rw [hsplit]
    exact List.mem_append_right pre (List.mem_cons_self e rest)
  obtain ⟨le, l1, l2p, hgete, hle, hne, hqe⟩ := scanDoc_mem_shape D e he
  obtain ⟨lf, m1, m2, hgetf, hlf, hnf, hqf⟩ := scanDoc_mem_shape D f hf
  cases l2p with
  | nil =>
    rw [hnxt] at hne
    simp at hne
  | cons rnode l2 =>
    have hrid : rnode.id = f.elem.id := by
      rw [hnxt] at hne
      exact (Option.some.inj hne).symm
    have hrmem : rnode ∈ le := by
      rw [hle]
      exact List.mem_append_right l1
        (List.mem_cons_of_mem e.elem (List.mem_cons_self rnode l2))
    have hfmem : f.elem ∈ lf := by
      rw [hlf]
      exact List.mem_append_right m1 (List.mem_cons_self f.elem m2)
    have hpar : e.par = f.par := by
      by_contra hne2
      exact cross_ids_ne D hWF e.par f.par le lf hgete hgetf hne2 rnode f.elem
        hrmem hfmem hrid
    have hlelf : le = lf := by
      rw [hpar] at hgete
      exact Option.some.inj (hgete.symm.trans hgetf)
    have hinj := within_ids_nodup D hWF f.par lf hgetf
    have hrf : rnode = f.elem :=
      List.inj_on_of_nodup_map hinj (hlelf ▸ hrmem) hfmem hrid
    have hlf3 : lf = l1 ++ e.elem :: f.elem :: l2 := by
      rw [← hlelf, hle, hrf]
    have hlf2 : lf = (l1 ++ [e.elem]) ++ f.elem :: l2 := by
      rw [hlf3, List.append_assoc]
      rfl
    have hnodup_lf : lf.Nodup := hinj.of_map _
    obtain ⟨hm1, hm2⟩ := nodup_split_unique f.elem m1 m2 (l1 ++ [e.elem]) l2
      (hlf ▸ hnodup_lf) (hlf.symm.trans hlf2)
    obtain ⟨E, hE⟩ := scanChildren_adjacent e.par e.elem f.elem hqe hqf l1 l2
    have hfc : f = { elem := f.elem, par := e.par, nxt := l2.head?.map DNode.id } := by
      cases f with
      | mk fe fp fn =>
        simp only [QRef.mk.injEq, true_and]
        simp only at hpar hnf hm2
        exact ⟨hpar.symm, by rw [hnf, hm2]⟩
    have hecanon : e = { elem := e.elem, par := e.par, nxt := some f.elem.id } := by
      cases e with
      | mk ee ep en =>
        simp only [QRef.mk.injEq, true_and]
        simp only at hnxt
        exact hnxt
    have hgetlf : D.get? e.par = some lf := by
      rw [hpar]
      exact hgetf
    have hblock := scanAux_decomp D 0 e.par lf hgetlf
    have hcanon : scanDoc D = (scanAux 0 (D.take e.par) ++ E) ++
        e :: (f :: (scanChildren e.par l2 ++
          scanAux (e.par + 1) (D.drop (e.par + 1)))) := by
      rw [scanDoc, hblock, Nat.zero_add, hlf3, hE, ← hecanon, ← hfc]
      simp only [List.append_assoc, List.cons_append, List.nil_append]
    have hnods : (scanDoc D).Nodup := scan_nodup D hWF
    obtain ⟨hpre, hrest⟩ := nodup_split_unique e pre rest
      (scanAux 0 (D.take e.par) ++ E)
      (f :: (scanChildren e.par l2 ++ scanAux (e.par + 1) (D.drop (e.par + 1))))
      (hsplit ▸ hnods) (hsplit.symm.trans hcanon)
    rw [hrest]
    exact List.mem_cons_self f _

/-! ### Small lemmas feeding the restoration fold -/

theorem appendMove_length (doc : List (List DNode)) (p : Nat) (x : DNode) :
    (appendMove doc p x).length = doc.length := by
  unfold appendMove
  rw [modifyP_length, removeNode_length]

theorem eraseIds_cons_filter_congr (R : List Nat) (x : Nat) (l : List DNode)
    (h : ∀ n ∈ l, n.id ≠ x) :
    eraseIds (x :: R) l = eraseIds (R.filter (fun i => decide (i ≠ x))) l := by
  apply eraseIds_congr
  intro n hn
  constructor
  · intro hmem
    rcases List.mem_cons.mp hmem with h1 | h1
    · exact absurd h1 (h n hn)
    · rw [List.mem_filter]
      exact ⟨h1, by simpa using h n hn⟩
  · intro hmem
    exact List.mem_cons_of_mem x (List.mem_filter.mp hmem).1

theorem self_not_mem_filter_ne (R : List Nat) (x : Nat) :
    x ∉ R.filter (fun i => decide (i ≠ x)) := by
  intro h
  have := (List.mem_filter.mp h).2
  simp at this

theorem mem_filter_ne_subset (R : List Nat) (x i : Nat)
    (h : i ∈ R.filter (fun j => decide (j ≠ x))) : i ∈ R ∧ i ≠ x := by
  have := List.mem_filter.mp h
  exact ⟨this.1, by simpa using this.2⟩

theorem nodup_ids_concat (l1 : List DNode) (x : DNode)
    (h : ((l1 ++ [x]).map DNode.id).Nodup) : ∀ y ∈ l1, y.id ≠ x.id := by
  rw [List.map_append, List.nodup_append] at h
  intro y hy heq
  exact h.2.2 (List.mem_map_of_mem DNode.id hy) (by rw [heq]; simp)

theorem nodup_ids_parts (l1 : List DNode) (x rnode : DNode) (l2 : List DNode)
    (h : ((l1 ++ x :: rnode :: l2).map DNode.id).Nodup) :
    (∀ y ∈ l1, y.id ≠ x.id) ∧ (∀ y ∈ l1, y.id ≠ rnode.id) ∧ rnode.id ≠ x.id ∧
    (∀ y ∈ l2, y.id ≠ x.id) ∧ (∀ y ∈ l2, y.id ≠ rnode.id) := by
  rw [List.map_append, List.nodup_append] at h
  obtain ⟨h1, h2, hdisj⟩ := h
  rw [List.map_cons, List.nodup_cons] at h2
  obtain ⟨hx, h2⟩ := h2
  rw [List.map_cons, List.nodup_cons] at h2
  obtain ⟨hr, h2⟩ := h2
  refine ⟨?_, ?_, ?_, ?_, ?_⟩
  · intro y hy heq
    exact hdisj (List.mem_map_of_mem DNode.id hy)
      (by rw [heq, List.map_cons]; exact List.mem_cons_self x.id _)
  · intro y hy heq
    exact hdisj (List.mem_map_of_mem DNode.id hy)
      (by rw [heq, List.map_cons, List.map_cons]
          exact List.mem_cons_of_mem x.id (List.mem_cons_self rnode.id _))
  · intro heq
    exact hx (by rw [List.map_cons, ← heq]; exact List.mem_cons_self rnode.id _)
  · intro y hy heq
    apply hx
    rw [List.map_cons]
    exact List.mem_cons_of_mem rnode.id (heq ▸ List.mem_map_of_mem DNode.id hy)
  · intro y hy heq
    exact hr (heq ▸ List.mem_map_of_mem DNode.id hy)

theorem pre_elem_id_ne (D : List (List DNode)) (hWF : idsNodup D) (e : QRef)
    (pre rest : List QRef) (hsplit : scanDoc D = pre ++ e :: rest) :
    ∀ f ∈ pre, f.elem.id ≠ e.elem.id := by
  have h := scan_ids_nodup D hWF
  rw [hsplit, List.map_append, List.nodup_append] at h
  intro f hf heq
  exact h.2.2 (List.mem_map_of_mem _ hf)
    (by rw [heq]; exact (List.map_cons _ e rest) ▸ List.mem_cons_self e.elem.id _)

theorem insertBeforeP_some_true (doc : List (List DNode)) (p : Nat) (x : DNode) (r : Nat)
    (L : List DNode) (hget : doc.get? p = some L) (hmem : ∃ n ∈ L, n.id = r) :
    insertBeforeP doc p x (some r) =
      (modifyP (removeNode doc x.id) p (insertBeforeList x r), true) := by
  have hc : (L.any fun n => decide (n.id = r)) = true := by
    rw [List.any_eq_true]
    obtain ⟨n, hn, hid⟩ := hmem
    exact ⟨n, hn, by simpa using hid⟩
  have h0 : insertBeforeP doc p x (some r) =
      if (((doc.get? p).getD []).any fun n => decide (n.id = r)) = true then
        (modifyP (removeNode doc x.id) p (insertBeforeList x r), true)
      else (doc, false) := rfl
  rw [h0, hget]
  simp only [Option.getD_some]
  rw [if_pos hc]

theorem insertBeforeP_some_false (doc : List (List DNode)) (p : Nat) (x : DNode) (r : Nat)
    (L : List DNode) (hget : doc.get? p = some L) (hnmem : ∀ n ∈ L, n.id ≠ r) :
    insertBeforeP doc p x (some r) = (doc, false) := by
  have hc : ¬ ((L.any fun n => decide (n.id = r)) = true) := by
    rw [List.any_eq_true]
    rintro ⟨n, hn, hid⟩
    exact hnmem n hn (by simpa using hid)
  have h0 : insertBeforeP doc p x (some r) =
      if (((doc.get? p).getD []).any fun n => decide (n.id = r)) = true then
        (modifyP (removeNode doc x.id) p (insertBeforeList x r), true)
      else (doc, false) := rfl
  rw [h0, hget]
  simp only [Option.getD_some]
  rw [if_neg hc]

theorem restoreCore_cons_true (doc d2 : List (List DNode)) (e : QRef) (es2 : List QRef)
    (h : insertBeforeP doc e.par e.elem e.nxt = (d2, true)) :
    restoreCore doc (e :: es2) = restoreCore d2 es2 := by
  show (match insertBeforeP doc e.par e.elem e.nxt with
    | (d2, true) => restoreCore d2 es2
    | (d2, false) => (d2, false)) = restoreCore d2 es2
  rw [h]

theorem restoreCore_cons_false (doc d2 : List (List DNode)) (e : QRef) (es2 : List QRef)
    (h : insertBeforeP doc e.par e.elem e.nxt = (d2, false)) :
    restoreCore doc (e :: es2) = (d2, false) := by
  show (match insertBeforeP doc e.par e.elem e.nxt with
    | (d2, true) => restoreCore d2 es2
    | (d2, false) => (d2, false)) = (d2, false)
  rw [h]

/-- Effect of one `insertBefore(el, null)` (append) step of the restoration
loop on the document description. -/
theorem append_step (D : List (List DNode)) (sq : Option Nat) (hWF : idsNodup D)
    (e : QRef) (pre es2 : List QRef) (doc : List (List DNode)) (R : List Nat)
    (hsplit : scanDoc D = pre ++ e :: es2)
    (hlen : doc.length = D.length)
    (HA : ∀ p l, some p ≠ sq → D.get? p = some l → doc.get? p = some (eraseIds R l))
    (HB : ∀ s0, sq = some s0 →
      doc.get? s0 = some ((pre.filter (fun f => decide (f.par = s0))).map QRef.elem))
    (hnone : e.nxt = none) :
    (appendMove doc e.par e.elem).length = D.length ∧
    (∀ p l, some p ≠ sq → D.get? p = some l →
      (appendMove doc e.par e.elem).get? p =
        some (eraseIds (R.filter (fun i => decide (i ≠ e.elem.id))) l)) ∧
    (∀ s0, sq = some s0 → (appendMove doc e.par e.elem).get? s0 =
      some (((pre ++ [e]).filter (fun f => decide (f.par = s0))).map QRef.elem)) := by
  have he : e ∈ scanDoc D := by
    rw [hsplit]
    exact List.mem_append_right pre (List.mem_cons_self e es2)
  obtain ⟨le, l1, l2p, hgete, hle, hne, hqe⟩ := scanDoc_mem_shape D e he
  have hl2p : l2p = [] := by
    rw [hnone] at hne
    cases l2p with
    | nil => rfl
    | cons a b => simp at hne
  subst hl2p
  have hxle : e.elem ∈ le := by
    rw [hle]
    exact List.mem_append_right l1 (List.mem_cons_self e.elem [])
  have hcross : ∀ p l, p ≠ e.par → D.get? p = some l → ∀ n ∈ l, n.id ≠ e.elem.id := by
    intro p l hp hget n hn
    exact cross_ids_ne D hWF p e.par l le hget hgete hp n e.elem hn hxle
  refine ⟨(appendMove_length doc e.par e.elem).trans hlen, ?_, ?_⟩
  · intro p l hpsq hget
    by_cases hp : p = e.par
    · subst hp
      have hle2 : l = l1 ++ [e.elem] :=
        (Option.some.inj (hget.symm.trans hgete)).symm ▸ hle
      have hl1ne : ∀ y ∈ l1, y.id ≠ e.elem.id := by
        have hw := within_ids_nodup D hWF e.par l hget
        rw [hle2] at hw
        exact nodup_ids_concat l1 e.elem hw
      have hrem : (removeNode doc e.elem.id).get? e.par =
          some ((eraseIds R l).filter (fun n => decide (n.id ≠ e.elem.id))) := by
        rw [removeNode_get?, HA e.par l hpsq hget]
        rfl
      unfold appendMove
      rw [modifyP_get?_eq _ _ _ _ hrem, eraseIds_filter_ne]
      congr 1
      have hone : eraseIds (R.filter (fun i => decide (i ≠ e.elem.id))) [e.elem] =
          [e.elem] := by
        rw [eraseIds_cons_not_mem _ _ _ (self_not_mem_filter_ne R e.elem.id)]
        rfl
      have hLHS : eraseIds (e.elem.id :: R) l =
          eraseIds (R.filter (fun i => decide (i ≠ e.elem.id))) l1 := by
        conv_lhs => rw [hle2]
        rw [eraseIds_append, eraseIds_cons_mem _ _ _ (List.mem_cons_self e.elem.id R)]
        show eraseIds (e.elem.id :: R) l1 ++ [] = _
        rw [List.append_nil]
        exact eraseIds_cons_filter_congr R e.elem.id l1 hl1ne
      have hRHS : eraseIds (R.filter (fun i => decide (i ≠ e.elem.id))) l =
          eraseIds (R.filter (fun i => decide (i ≠ e.elem.id))) l1 ++ [e.elem] := by
        conv_lhs => rw [hle2]
        rw [eraseIds_append, hone]
      rw [hLHS, hRHS]
    · unfold appendMove
      rw [modifyP_get?_ne _ _ _ _ (fun h => hp h.symm), removeNode_get?, HA p l hpsq hget]
      show some ((eraseIds R l).filter (fun n => decide (n.id ≠ e.elem.id))) = _
      rw [eraseIds_filter_ne, eraseIds_cons_filter_congr R e.elem.id l (hcross p l hp hget)]
  · intro s0 hs0
    have hLp := HB s0 hs0
    have hpre_ne : ∀ n ∈ (pre.filter (fun f => decide (f.par = s0))).map QRef.elem,
        n.id ≠ e.elem.id := by
      intro n hn
      rw [List.mem_map] at hn
      obtain ⟨f, hf, hfe⟩ := hn
      rw [← hfe]
      exact pre_elem_id_ne D hWF e pre es2 hsplit f (List.mem_of_mem_filter hf)
    have hnoopfilter : ((pre.filter (fun f => decide (f.par = s0))).map QRef.elem).filter
        (fun n => decide (n.id ≠ e.elem.id)) =
        (pre.filter (fun f => decide (f.par = s0))).map QRef.elem := by
      rw [List.filter_eq_self]
      intro n hn
      simpa using hpre_ne n hn
    have hrem2 : (removeNode doc e.elem.id).get? s0 =
        some ((pre.filter (fun f => decide (f.par = s0))).map QRef.elem) := by
      rw [removeNode_get?, hLp]
      exact congrArg some hnoopfilter
    by_cases hp : e.par = s0
    · unfold appendMove
      rw [← hp] at hrem2 ⊢
      rw [modifyP_get?_eq _ _ _ _ hrem2]
      rw [List.filter_append, List.map_append]
      have hfe : (List.filter (fun f => decide (f.par = e.par)) [e]).map QRef.elem =
          [e.elem] := by
        rw [List.filter_cons]
        simp
      rw [hfe]
    · unfold appendMove
      rw [modifyP_get?_ne _ _ _ _ (fun h => hp h), hrem2]
      rw [List.filter_append, List.map_append]
      have hfe : (List.filter (fun f => decide (f.par = s0)) [e]).map QRef.elem = [] := by
        rw [List.filter_cons]
        simp [hp]
      rw [hfe, List.append_nil]


/-- Effect of one successful `insertBefore(el, ref)` step of the restoration
loop: the reference is present, so the element lands immediately before it. -/
theorem insert_step (D : List (List DNode)) (sq : Option Nat) (hWF : idsNodup D)
    (e : QRef) (pre es2 : List QRef) (doc : List (List DNode)) (R : List Nat)
    (hsplit : scanDoc D = pre ++ e :: es2)
    (hlen : doc.length = D.length)
    (HA : ∀ p l, some p ≠ sq → D.get? p = some l → doc.get? p = some (eraseIds R l))
    (HB : ∀ s0, sq = some s0 →
      doc.get? s0 = some ((pre.filter (fun f => decide (f.par = s0))).map QRef.elem))
    (hpq : some e.par ≠ sq) (r : Nat) (hsome : e.nxt = some r) (hrR : r ∉ R) :
    insertBeforeP doc e.par e.elem e.nxt =
      (modifyP (removeNode doc e.elem.id) e.par (insertBeforeList e.elem r), true) ∧
    (modifyP (removeNode doc e.elem.id) e.par (insertBeforeList e.elem r)).length =
      D.length ∧
    (∀ p l, some p ≠ sq → D.get? p = some l →
      (modifyP (removeNode doc e.elem.id) e.par (insertBeforeList e.elem r)).get? p =
        some (eraseIds (R.filter (fun i => decide (i ≠ e.elem.id))) l)) ∧
    (∀ s0, sq = some s0 →
      (modifyP (removeNode doc e.elem.id) e.par (insertBeforeList e.elem r)).get? s0 =
        some (((pre ++ [e]).filter (fun f => decide (f.par = s0))).map QRef.elem)) := by
  have he : e ∈ scanDoc D := by
    rw [hsplit]
    exact List.mem_append_right pre (List.mem_cons_self e es2)
  obtain ⟨le, l1, l2p, hgete, hle, hne, hqe⟩ := scanDoc_mem_shape D e he
  cases l2p with
  | nil =>
    rw [hsome] at hne
    simp at hne
  | cons rnode l2 =>
  have hrid : rnode.id = r := by
    rw [hsome] at hne
    exact (Option.some.inj hne).symm
  have hxle : e.elem ∈ le := by
    rw [hle]
    exact List.mem_append_right l1 (List.mem_cons_self e.elem _)
  have hrle : rnode ∈ le := by
    rw [hle]
    exact List.mem_append_right l1
      (List.mem_cons_of_mem e.elem (List.mem_cons_self rnode l2))
  have hcross : ∀ p l, p ≠ e.par → D.get? p = some l → ∀ n ∈ l, n.id ≠ e.elem.id := by
    intro p l hp hget n hn
    exact cross_ids_ne D hWF p e.par l le hget hgete hp n e.elem hn hxle
  have hwithin := within_ids_nodup D hWF e.par le hgete
  obtain ⟨hpt1, hpt2, hpt3, hpt4, hpt5⟩ :=
    nodup_ids_parts l1 e.elem rnode l2 (by rw [hle] at hwithin; exact hwithin)
  have hgetdoc : doc.get? e.par = some (eraseIds R le) := HA e.par le hpq hgete
  have hrmem : rnode ∈ eraseIds R le :=
    mem_eraseIds R le rnode hrle (by rw [hrid]; exact hrR)
  have heq : insertBeforeP doc e.par e.elem e.nxt =
      (modifyP (removeNode doc e.elem.id) e.par (insertBeforeList e.elem r), true) := by
    rw [hsome]
    exact insertBeforeP_some_true doc e.par e.elem r (eraseIds R le) hgetdoc
      ⟨rnode, hrmem, hrid⟩
  refine ⟨heq, ?_, ?_, ?_⟩
  · rw [modifyP_length, removeNode_length]
    exact hlen
  · intro p l hpsq hget
    by_cases hp : p = e.par
    · subst hp
      have hle2 : l = l1 ++ e.elem :: rnode :: l2 :=
        (Option.some.inj (hget.symm.trans hgete)).symm ▸ hle
      have hrem : (removeNode doc e.elem.id).get? e.par =
          some ((eraseIds R l).filter (fun n => decide (n.id ≠ e.elem.id))) := by
        rw [removeNode_get?, HA e.par l hpsq hget]
        rfl
      rw [modifyP_get?_eq _ _ _ _ hrem, eraseIds_filter_ne]
      congr 1
      have hAform : eraseIds (e.elem.id :: R) l =
          eraseIds (e.elem.id :: R) l1 ++ rnode :: eraseIds (e.elem.id :: R) l2 := by
        conv_lhs => rw [hle2]
        rw [eraseIds_append, eraseIds_cons_mem _ _ _ (List.mem_cons_self e.elem.id R),
          eraseIds_cons_not_mem]
        intro hmem
        rcases List.mem_cons.mp hmem with h1 | h1
        · exact hpt3 h1
        · rw [hrid] at h1
          exact hrR h1
      have hins : insertBeforeList e.elem r
          (eraseIds (e.elem.id :: R) l1 ++ rnode :: eraseIds (e.elem.id :: R) l2) =
          eraseIds (e.elem.id :: R) l1 ++ e.elem :: rnode ::
            eraseIds (e.elem.id :: R) l2 := by
        apply insertBeforeList_spec e.elem rnode r _ _ hrid
        intro y hy
        have hy2 := (eraseIds_id_not_mem _ _ _ hy).1
        rw [← hrid]
        exact hpt2 y hy2
      rw [hAform, hins]
      have hRHS : eraseIds (R.filter (fun i => decide (i ≠ e.elem.id))) l =
          eraseIds (R.filter (fun i => decide (i ≠ e.elem.id))) l1 ++ e.elem :: rnode ::
            eraseIds (R.filter (fun i => decide (i ≠ e.elem.id))) l2 := by
        conv_lhs => rw [hle2]
        rw [eraseIds_append,
          eraseIds_cons_not_mem _ _ _ (self_not_mem_filter_ne R e.elem.id),
          eraseIds_cons_not_mem]
        intro hmem
        obtain ⟨h1, -⟩ := mem_filter_ne_subset R e.elem.id rnode.id hmem
        rw [hrid] at h1
        exact hrR h1
      rw [hRHS, eraseIds_cons_filter_congr R e.elem.id l1 hpt1,
        eraseIds_cons_filter_congr R e.elem.id l2 hpt4]
    · rw [modifyP_get?_ne _ _ _ _ (fun h => hp h.symm), removeNode_get?, HA p l hpsq hget]
      show some ((eraseIds R l).filter (fun n => decide (n.id ≠ e.elem.id))) = _
      rw [eraseIds_filter_ne, eraseIds_cons_filter_congr R e.elem.id l (hcross p l hp hget)]
  · intro s0 hs0
    have hps0 : e.par ≠ s0 := by
      intro h
      rw [hs0, h] at hpq
      exact hpq rfl
    have hLp := HB s0 hs0
    have hpre_ne : ∀ n ∈ (pre.filter (fun f => decide (f.par = s0))).map QRef.elem,
        n.id ≠ e.elem.id := by
      intro n hn
      rw [List.mem_map] at hn
      obtain ⟨f, hf, hfe⟩ := hn
      rw [← hfe]
      exact pre_elem_id_ne D hWF e pre es2 hsplit f (List.mem_of_mem_filter hf)
    have hnoopfilter : ((pre.filter (fun f => decide (f.par = s0))).map QRef.elem).filter
        (fun n => decide (n.id ≠ e.elem.id)) =
        (pre.filter (fun f => decide (f.par = s0))).map QRef.elem := by
      rw [List.filter_eq_self]
      intro n hn
      simpa using hpre_ne n hn
    have hrem2 : (removeNode doc e.elem.id).get? s0 =
        some ((pre.filter (fun f => decide (f.par = s0))).map QRef.elem) := by
      rw [removeNode_get?, hLp]
      exact congrArg some hnoopfilter
    rw [modifyP_get?_ne _ _ _ _ hps0, hrem2]
    rw [List.filter_append, List.map_append]
    have hfe : (List.filter (fun f => decide (f.par = s0)) [e]).map QRef.elem = [] := by
      rw [List.filter_cons]
      simp [hps0]
    rw [hfe, List.append_nil]

/-- Main inductive description of the restoration loop.  Starting from a
document that is the load-time document with the out-of-place questions `R`
erased (and the container holding exactly the already processed container
questions), a run that does not throw puts every remaining entry back, and a
run throws exactly when a recorded next sibling is missing. -/
theorem restoreCore_main (D : List (List DNode)) (sq : Option Nat) (hWF : idsNodup D) :
    ∀ (es pre : List QRef) (doc : List (List DNode)) (R : List Nat),
      scanDoc D = pre ++ es →
      doc.length = D.length →
      (∀ p l, some p ≠ sq → D.get? p = some l → doc.get? p = some (eraseIds R l)) →
      (∀ i ∈ R, ∃ e, e ∈ es ∧ e.elem.id = i ∧ some e.par ≠ sq) →
      (∀ s0, sq = some s0 →
        doc.get? s0 = some ((pre.filter (fun f => decide (f.par = s0))).map QRef.elem)) →
      ((restoreCore doc es).2 = true →
        ((restoreCore doc es).1.length = D.length ∧
         (∀ p l, some p ≠ sq → D.get? p = some l →
           (restoreCore doc es).1.get? p = some l) ∧
         (∀ s0, sq = some s0 → (restoreCore doc es).1.get? s0 =
           some (((pre ++ es).filter (fun f => decide (f.par = s0))).map QRef.elem)) ∧
         (∀ e ∈ es, ∀ s0, sq = some s0 → e.par = s0 → e.nxt = none))) ∧
      ((∀ e ∈ es, ∀ r2, e.nxt = some r2 → r2 ∉ R) →
       (∀ e ∈ es, ∀ s0, sq = some s0 → e.par = s0 → e.nxt = none) →
       (restoreCore doc es).2 = true) := by
  intro es
  induction es with
  | nil =>
    intro pre doc R hsplit hlen HA HR HB
    constructor
    · intro _
      refine ⟨hlen, ?_, ?_, ?_⟩
      · intro p l hpsq hget
        show doc.get? p = some l
        rw [HA p l hpsq hget, eraseIds_eq_self]
        intro i hi
        obtain ⟨e2, he2, -⟩ := HR i hi
        cases he2
      · intro s0 hs0
        show doc.get? s0 = _
        rw [List.append_nil]
        exact HB s0 hs0
      · intro e2 he2
        cases he2
    · intro _ _
      rfl
  | cons e es2 ih =>
    intro pre doc R hsplit hlen HA HR HB
    have hsplit2 : scanDoc D = (pre ++ [e]) ++ es2 := by
      rw [hsplit, List.append_assoc, List.singleton_append]
    have hconv : (pre ++ [e]) ++ es2 = pre ++ e :: es2 := by
      rw [List.append_assoc, List.singleton_append]
    have HR2base : ∀ i ∈ R.filter (fun j => decide (j ≠ e.elem.id)),
        ∃ e2, e2 ∈ es2 ∧ e2.elem.id = i ∧ some e2.par ≠ sq := by
      intro i hi
      obtain ⟨hiR, hine⟩ := mem_filter_ne_subset R e.elem.id i hi
      obtain ⟨e2, he2, hid2, hpq2⟩ := HR i hiR
      rcases List.mem_cons.mp he2 with h1 | h1
      · subst h1
        exact absurd hid2.symm hine
      · exact ⟨e2, h1, hid2, hpq2⟩
    cases hnx : e.nxt with
    | none =>
      have hstep := append_step D sq hWF e pre es2 doc R hsplit hlen HA HB hnx
      have hins : insertBeforeP doc e.par e.elem e.nxt =
          (appendMove doc e.par e.elem, true) := by
        rw [hnx]
        rfl
      rw [restoreCore_cons_true doc _ e es2 hins]
      have hih := ih (pre ++ [e]) (appendMove doc e.par e.elem)
        (R.filter (fun i => decide (i ≠ e.elem.id))) hsplit2 hstep.1 hstep.2.1 HR2base
        hstep.2.2
      constructor
      · intro hok
        obtain ⟨hl2, hA2, hB2, hC2⟩ := hih.1 hok
        refine ⟨hl2, hA2, ?_, ?_⟩
        · intro s0 hs0
          rw [← hconv]
          exact hB2 s0 hs0
        · intro e2 he2 s0 hs0 hps0
          rcases List.mem_cons.mp he2 with h1 | h1
          · subst h1
            exact hnx
          · exact hC2 e2 h1 s0 hs0 hps0
      · intro hnr hs0all
        apply hih.2
        · intro e2 he2 r2 hr2 hmem
          exact hnr e2 (List.mem_cons_of_mem e he2) r2 hr2
            (mem_filter_ne_subset R e.elem.id r2 hmem).1
        · intro e2 he2 s0 hs0 hps0
          exact hs0all e2 (List.mem_cons_of_mem e he2) s0 hs0 hps0
    | some r =>
      by_cases hpq : some e.par = sq
      · -- reinsertion into the container: the reference is never present
        have hLp := HB e.par hpq.symm
        have hnomem : ∀ n ∈ (pre.filter (fun f => decide (f.par = e.par))).map QRef.elem,
            n.id ≠ r := by
          intro n hn hid
          rw [List.mem_map] at hn
          obtain ⟨f, hf, hfe⟩ := hn
          have hfpre : f ∈ pre := List.mem_of_mem_filter hf
          have hfscan : f ∈ scanDoc D := by
            rw [hsplit]
            exact List.mem_append_left _ hfpre
          have hford : f ∈ es2 := by
            refine scan_ref_comes_later D hWF e f pre es2 hsplit hfscan ?_
            rw [hnx, hfe, hid]
          have hnods := scan_nodup D hWF
          rw [hsplit, List.nodup_append] at hnods
          exact hnods.2.2 hfpre (List.mem_cons_of_mem e hford)
        have hins : insertBeforeP doc e.par e.elem e.nxt = (doc, false) := by
          rw [hnx]
          exact insertBeforeP_some_false doc e.par e.elem r _ hLp hnomem
        rw [restoreCore_cons_false doc doc e es2 hins]
        constructor
        · intro hok
          exact absurd hok Bool.false_ne_true
        · intro hnr hs0all
          have h2 := hs0all e (List.mem_cons_self e es2) e.par hpq.symm rfl
          rw [hnx] at h2
          cases h2
      · by_cases hrR : r ∈ R
        · -- the reference was itself moved out: insertBefore throws
          have he : e ∈ scanDoc D := by
            rw [hsplit]
            exact List.mem_append_right pre (List.mem_cons_self e es2)
          obtain ⟨le, l1, l2p, hgete, hle, hne, hqe⟩ := scanDoc_mem_shape D e he
          have hLe := HA e.par le hpq hgete
          have hnomem : ∀ n ∈ eraseIds R le, n.id ≠ r := by
            intro n hn hid
            exact (eraseIds_id_not_mem R le n hn).2 (hid ▸ hrR)
          have hins : insertBeforeP doc e.par e.elem e.nxt = (doc, false) := by
            rw [hnx]
            exact insertBeforeP_some_false doc e.par e.elem r _ hLe hnomem
          rw [restoreCore_cons_false doc doc e es2 hins]
          constructor
          · intro hok
            exact absurd hok Bool.false_ne_true
          · intro hnr hs0all
            exact absurd hrR (hnr e (List.mem_cons_self e es2) r hnx)
        · -- successful insertion before the still-present reference
          have hstep := insert_step D sq hWF e pre es2 doc R hsplit hlen HA HB hpq r hnx hrR
          rw [restoreCore_cons_true doc _ e es2 hstep.1]
          have hih := ih (pre ++ [e])
            (modifyP (removeNode doc e.elem.id) e.par (insertBeforeList e.elem r))
            (R.filter (fun i => decide (i ≠ e.elem.id))) hsplit2 hstep.2.1 hstep.2.2.1
            HR2base hstep.2.2.2
          constructor
          · intro hok
            obtain ⟨hl2, hA2, hB2, hC2⟩ := hih.1 hok
            refine ⟨hl2, hA2, ?_, ?_⟩
            · intro s0 hs0
              rw [← hconv]
              exact hB2 s0 hs0
            · intro e2 he2 s0 hs0 hps0
              rcases List.mem_cons.mp he2 with h1 | h1
              · subst h1
                exact absurd (by rw [hps0, ← hs0] : some e2.par = sq) hpq
              · exact hC2 e2 h1 s0 hs0 hps0
          · intro hnr hs0all
            apply hih.2
            · intro e2 he2 r2 hr2 hmem
              exact hnr e2 (List.mem_cons_of_mem e he2) r2 hr2
                (mem_filter_ne_subset R e.elem.id r2 hmem).1
            · intro e2 he2 s0 hs0 hps0
              exact hs0all e2 (List.mem_cons_of_mem e he2) s0 hs0 hps0

/-! ### Run-level invariants -/

/-- The registry and the container index never change after initialisation. -/
def Coh (d : InitDoc) (s : St) : Prop :=
  s.allQuestions = scanDoc d.parents ∧ s.sqcIdx = d.sqcIdx

/-- The reachable-document invariant: outside the single-question container,
every container holds its load-time children minus the questions currently
moved away or detached (the ids in `R`). -/
def INVdoc (d : InitDoc) (s : St) : Prop :=
  ∃ R : List Nat,
    (∀ i ∈ R, ∃ e, e ∈ scanDoc d.parents ∧ e.elem.id = i ∧ some e.par ≠ d.sqcIdx) ∧
    s.doc.length = d.parents.length ∧
    (∀ p l, some p ≠ d.sqcIdx → d.parents.get? p = some l →
      s.doc.get? p = some (eraseIds R l))

theorem renderSingleQuestion_sqcIdx (s : St) (i : Nat) :
    (renderSingleQuestion s i).sqcIdx = s.sqcIdx := by
  unfold renderSingleQuestion
  cases hsq : s.sqcIdx with
  | none => exact hsq
  | some sq =>
    simp only
    split
    · exact hsq
    · cases s.allQuestions.get? i
      · rfl
      · rfl

theorem step_sqcIdx (s : St) (e : Ev) : (step s e).sqcIdx = s.sqcIdx := by
  cases e with
  | mode m =>
    show (switchMode s m).sqcIdx = s.sqcIdx
    unfold switchMode
    split
    · rfl
    · split
      · rfl
      · exact renderSingleQuestion_sqcIdx _ _
  | prev =>
    show (prevClick s).sqcIdx = s.sqcIdx
    unfold prevClick
    split
    · exact renderSingleQuestion_sqcIdx _ _
    · rfl
  | next =>
    show (nextClick s).sqcIdx = s.sqcIdx
    unfold nextClick
    split
    · exact renderSingleQuestion_sqcIdx _ _
    · rfl

theorem step_Coh (d : InitDoc) (s : St) (e : Ev) (h : Coh d s) : Coh d (step s e) :=
  ⟨(step_allQuestions s e).trans h.1, (step_sqcIdx s e).trans h.2⟩

theorem renderSingleQuestion_errored_mono (s : St) (i : Nat) (h : s.errored = true) :
    (renderSingleQuestion s i).errored = true := by
  unfold renderSingleQuestion
  cases s.sqcIdx with
  | none => exact h
  | some sq =>
    simp only
    split
    · exact h
    · cases s.allQuestions.get? i
      · rfl
      · exact h

theorem restoreListView_errored_mono (s : St) (h : s.errored = true) :
    (restoreListView s).errored = true := by
  show (s.errored || _) = true
  rw [h]
  rfl

theorem step_errored_mono (s : St) (e : Ev) (h : s.errored = true) :
    (step s e).errored = true := by
  cases e with
  | mode m =>
    show (switchMode s m).errored = true
    unfold switchMode
    split
    · exact h
    · split
      · exact restoreListView_errored_mono _ h
      · exact renderSingleQuestion_errored_mono _ _ h
  | prev =>
    show (prevClick s).errored = true
    unfold prevClick
    split
    · exact renderSingleQuestion_errored_mono _ _ h
    · exact h
  | next =>
    show (nextClick s).errored = true
    unfold nextClick
    split
    · exact renderSingleQuestion_errored_mono _ _ h
    · exact h

theorem foldl_errored_back (evs : List Ev) :
    ∀ s : St, (evs.foldl step s).errored = false → s.errored = false := by
  induction evs with
  | nil => exact fun s h => h
  | cons e rest ih =>
    intro s h
    have h2 := ih (step s e) h
    by_cases hs : s.errored = true
    · rw [step_errored_mono s e hs] at h2
      cases h2
    · exact Bool.not_eq_true _ |>.mp hs

theorem renderSingleQuestion_noop (s : St) (i : Nat)
    (h : s.sqcIdx = none ∨ s.hasProgress = false ∨ s.hasPrev = false ∨
      s.hasNext = false ∨ s.allQuestions.length = 0) :
    renderSingleQuestion s i = s := by
  unfold renderSingleQuestion
  cases hsq : s.sqcIdx with
  | none => rfl
  | some sq =>
    simp only
    rw [if_pos]
    rcases h with h | h
    · rw [hsq] at h
      cases h
    · exact h

theorem renderSingleQuestion_eq_err (s : St) (i : Nat) (sq : Nat)
    (hsq : s.sqcIdx = some sq)
    (hguard : ¬(s.hasProgress = false ∨ s.hasPrev = false ∨ s.hasNext = false ∨
      s.allQuestions.length = 0))
    (hget : s.allQuestions.get? i = none) :
    renderSingleQuestion s i =
      { s with doc := clearP s.doc sq, currentQuestionIndex := i, errored := true } := by
  unfold renderSingleQuestion
  rw [hsq]
  simp only
  rw [if_neg hguard, hget]

theorem renderSingleQuestion_eq_ok (s : St) (i : Nat) (sq : Nat) (qr : QRef)
    (hsq : s.sqcIdx = some sq)
    (hguard : ¬(s.hasProgress = false ∨ s.hasPrev = false ∨ s.hasNext = false ∨
      s.allQuestions.length = 0))
    (hget : s.allQuestions.get? i = some qr) :
    renderSingleQuestion s i =
      { s with
        doc := appendMove (clearP s.doc sq) sq qr.elem,
        currentQuestionIndex := i,
        progress := "Soru " ++ toString (i + 1) ++ " / " ++ toString s.allQuestions.length,
        prevDisabled := decide (i = 0),
        nextDisabled := decide (i = s.allQuestions.length - 1) } := by
  unfold renderSingleQuestion
  rw [hsq]
  simp only
  rw [if_neg hguard, hget]

theorem renderSingleQuestion_INVdoc (d : InitDoc) (s : St) (i : Nat)
    (hWF : idsNodup d.parents) (hCoh : Coh d s) (hinv : INVdoc d s)
    (herr2 : (renderSingleQuestion s i).errored = false) :
    INVdoc d (renderSingleQuestion s i) := by
  obtain ⟨R, HR, hlen, HA⟩ := hinv
  cases hsq : s.sqcIdx with
  | none =>
    rw [renderSingleQuestion_noop s i (Or.inl hsq)]
    exact ⟨R, HR, hlen, HA⟩
  | some sq =>
    by_cases hguard : s.hasProgress = false ∨ s.hasPrev = false ∨ s.hasNext = false ∨
      s.allQuestions.length = 0
    · rw [renderSingleQuestion_noop s i (Or.inr hguard)]
      exact ⟨R, HR, hlen, HA⟩
    · cases hget : s.allQuestions.get? i with
      | none =>
        rw [renderSingleQuestion_eq_err s i sq hsq hguard hget] at herr2
        cases herr2
      | some qr =>
        rw [renderSingleQuestion_eq_ok s i sq qr hsq hguard hget]
        have hd : d.sqcIdx = some sq := hCoh.2.symm.trans hsq
        have hscan : qr ∈ scanDoc d.parents := by
          rw [hCoh.1] at hget
          exact List.get?_mem hget
        obtain ⟨lq, lq1, lq2, hgetq, hlq, -, -⟩ := scanDoc_mem_shape d.parents qr hscan
        have hqmem : qr.elem ∈ lq := by
          rw [hlq]
          exact List.mem_append_right lq1 (List.mem_cons_self qr.elem lq2)
        have hdoc2 : ∀ p l, some p ≠ d.sqcIdx → d.parents.get? p = some l →
            (appendMove (clearP s.doc sq) sq qr.elem).get? p =
              some (eraseIds (qr.elem.id :: R) l) := by
          intro p l hpsq hget2
          have hpne : sq ≠ p := by
            intro h
            rw [hd, h] at hpsq
            exact hpsq rfl
          unfold appendMove
          rw [modifyP_get?_ne _ _ _ _ hpne, removeNode_get?,
            clearP_get?_ne _ _ _ hpne, HA p l hpsq hget2]
          show some ((eraseIds R l).filter (fun n => decide (n.id ≠ qr.elem.id))) = _
          rw [eraseIds_filter_ne]
        have hlen2 : (appendMove (clearP s.doc sq) sq qr.elem).length =
            d.parents.length := by
          rw [appendMove_length, clearP_length, hlen]
        by_cases hqp : some qr.par = d.sqcIdx
        · refine ⟨R, HR, hlen2, ?_⟩
          intro p l hpsq hget2
          rw [hdoc2 p l hpsq hget2]
          congr 1
          apply eraseIds_congr
          intro n hn
          have hne : n.id ≠ qr.elem.id := by
            have hppar : p ≠ qr.par := by
              intro h
              rw [← hqp, ← h] at hpsq
              exact hpsq rfl
            exact cross_ids_ne d.parents hWF p qr.par l lq hget2 hgetq hppar n qr.elem
              hn hqmem
          constructor
          · intro hmem
            rcases List.mem_cons.mp hmem with h1 | h1
            · exact absurd h1 hne
            · exact h1
          · exact fun h1 => List.mem_cons_of_mem _ h1
        · refine ⟨qr.elem.id :: R, ?_, hlen2, ?_⟩
          · intro j hj
            rcases List.mem_cons.mp hj with h1 | h1
            · exact ⟨qr, hscan, h1.symm, hqp⟩
            · exact HR j h1
          · exact hdoc2

/-- After a non-throwing `restoreListView` from a coherent reachable state:
every ordinary container is back to its load-time children, the
single-question container holds exactly its own scan block, and every
container question had a null recorded next sibling. -/
theorem restoreListView_ok_spec (d : InitDoc) (s : St)
    (hWF : idsNodup d.parents)
    (hsqlt : ∀ s0, d.sqcIdx = some s0 → s0 < d.parents.length)
    (hCoh : Coh d s) (hinv : INVdoc d s)
    (herr : s.errored = false) (hok : (restoreListView s).errored = false) :
    (restoreListView s).doc.length = d.parents.length ∧
    (∀ p l, some p ≠ d.sqcIdx → d.parents.get? p = some l →
      (restoreListView s).doc.get? p = some l) ∧
    (∀ s0, d.sqcIdx = some s0 → (restoreListView s).doc.get? s0 =
      some (((scanDoc d.parents).filter (fun f => decide (f.par = s0))).map QRef.elem)) ∧
    (∀ e ∈ scanDoc d.parents, ∀ s0, d.sqcIdx = some s0 → e.par = s0 → e.nxt = none) := by
  obtain ⟨R, HR, hlen, HA⟩ := hinv
  have hdoc0 : (restoreListView s).doc =
      (restoreCore (match s.sqcIdx with
        | some sq => clearP s.doc sq
        | none => s.doc) s.allQuestions).1 := rfl
  have hflag : (restoreListView s).errored =
      (s.errored || !(restoreCore (match s.sqcIdx with
        | some sq => clearP s.doc sq
        | none => s.doc) s.allQuestions).2) := rfl
  set doc0 := (match s.sqcIdx with
    | some sq => clearP s.doc sq
    | none => s.doc) with hdoc0def
  have hcore_ok : (restoreCore doc0 s.allQuestions).2 = true := by
    rw [hflag, herr, Bool.false_or] at hok
    cases hcase : (restoreCore doc0 s.allQuestions).2
    · rw [hcase] at hok
      cases hok
    · rfl
  have hlen0 : doc0.length = d.parents.length := by
    rw [hdoc0def]
    cases s.sqcIdx with
    | none => exact hlen
    | some sq =>
      show (clearP s.doc sq).length = _
      rw [clearP_length, hlen]
  have HA0 : ∀ p l, some p ≠ d.sqcIdx → d.parents.get? p = some l →
      doc0.get? p = some (eraseIds R l) := by
    intro p l hpsq hget
    rw [hdoc0def]
    cases hsq : s.sqcIdx with
    | none => exact HA p l hpsq hget
    | some sq =>
      have hd : d.sqcIdx = some sq := hCoh.2.symm.trans hsq
      have hpne : sq ≠ p := by
        intro h
        rw [hd, h] at hpsq
        exact hpsq rfl
      show (clearP s.doc sq).get? p = _
      rw [clearP_get?_ne _ _ _ hpne]
      exact HA p l hpsq hget
  have HB0 : ∀ s0, d.sqcIdx = some s0 → doc0.get? s0 =
      some ((([] : List QRef).filter (fun f => decide (f.par = s0))).map QRef.elem) := by
    intro s0 hs0
    have hssq : s.sqcIdx = some s0 := hCoh.2.trans hs0
    rw [hdoc0def]
    have hlt : s0 < s.doc.length := by
      rw [hlen]
      exact hsqlt s0 hs0
    obtain ⟨l0, hl0⟩ : ∃ l0, s.doc.get? s0 = some l0 := by
      rw [List.get?_eq_get hlt]
      exact ⟨_, rfl⟩
    rw [hssq]
    show (clearP s.doc s0).get? s0 = _
    rw [clearP_get?_eq s.doc s0 l0 hl0]
    rfl
  have hmain := restoreCore_main d.parents d.sqcIdx hWF s.allQuestions [] doc0 R
    (by rw [hCoh.1, List.nil_append]) hlen0 HA0
    (by
      intro i hi
      obtain ⟨e2, he2, hid, hpq⟩ := HR i hi
      exact ⟨e2, by rw [hCoh.1]; exact he2, hid, hpq⟩)
    HB0
  obtain ⟨hl2, hA2, hB2, hC2⟩ := hmain.1 hcore_ok
  rw [hdoc0]
  refine ⟨hl2, hA2, ?_, ?_⟩
  · intro s0 hs0
    have h3 := hB2 s0 hs0
    rw [List.nil_append, hCoh.1] at h3
    rw [hCoh.1]
    exact h3
  · intro e2 he2 s0 hs0 hps0
    rw [← hCoh.1] at he2
    exact hC2 e2 he2 s0 hs0 hps0


/-! ### Preservation of the invariants along event runs -/

theorem restoreListView_INVdoc (d : InitDoc) (s : St)
    (hWF : idsNodup d.parents)
    (hsqlt : ∀ s0, d.sqcIdx = some s0 → s0 < d.parents.length)
    (hCoh : Coh d s) (hinv : INVdoc d s)
    (herr : s.errored = false) (hok : (restoreListView s).errored = false) :
    INVdoc d (restoreListView s) := by
  obtain ⟨hlen, hA, -, -⟩ := restoreListView_ok_spec d s hWF hsqlt hCoh hinv herr hok
  refine ⟨[], fun i hi => absurd hi (List.not_mem_nil i), hlen, ?_⟩
  intro p l hp hg
  rw [eraseIds_nil]
  exact hA p l hp hg

theorem switchMode_eq_self (s : St) (m : Mode) (h : s.currentMode = m) :
    switchMode s m = s := by
  unfold switchMode
  rw [if_pos h]

theorem switchMode_eq_restore (s : St) (m : Mode) (h1 : ¬ s.currentMode = m)
    (h2 : m = Mode.list) :
    switchMode s m = restoreListView
      { s with
        currentMode := m, bodyViewMode := some m,
        modeBtns := s.modeBtns.map (fun b => (b.1, decide (b.1 = m))) } := by
  unfold switchMode
  rw [if_neg h1, if_pos h2]

theorem switchMode_eq_render (s : St) (m : Mode) (h1 : ¬ s.currentMode = m)
    (h2 : ¬ m = Mode.list) :
    switchMode s m = renderSingleQuestion
      { s with
        currentMode := m, bodyViewMode := some m,
        modeBtns := s.modeBtns.map (fun b => (b.1, decide (b.1 = m))) }
      s.currentQuestionIndex := by
  unfold switchMode
  rw [if_neg h1, if_neg h2]

theorem step_INVdoc (d : InitDoc) (s : St) (e : Ev)
    (hWF : idsNodup d.parents)
    (hsqlt : ∀ s0, d.sqcIdx = some s0 → s0 < d.parents.length)
    (hCoh : Coh d s) (hinv : INVdoc d s)
    (hok : (step s e).errored = false) :
    INVdoc d (step s e) := by
  have herr : s.errored = false := by
    cases hcase : s.errored
    · rfl
    · rw [step_errored_mono s e hcase] at hok
      cases hok
  cases e with
  | mode m =>
    have hok2 : (switchMode s m).errored = false := hok
    show INVdoc d (switchMode s m)
    by_cases h1 : s.currentMode = m
    · rw [switchMode_eq_self s m h1]
      exact hinv
    · by_cases h2 : m = Mode.list
      · have heq := switchMode_eq_restore s m h1 h2
        rw [heq] at hok2 ⊢
        exact restoreListView_INVdoc d _ hWF hsqlt hCoh hinv herr hok2
      · have heq := switchMode_eq_render s m h1 h2
        rw [heq] at hok2 ⊢
        exact renderSingleQuestion_INVdoc d _ _ hWF hCoh hinv hok2
  | prev =>
    have hok2 : (prevClick s).errored = false := hok
    show INVdoc d (prevClick s)
    by_cases hc : s.hasPrev = true ∧ 0 < s.currentQuestionIndex
    · have heq : prevClick s = renderSingleQuestion s (s.currentQuestionIndex - 1) := by
        unfold prevClick
        rw [if_pos hc]
      rw [heq] at hok2 ⊢
      exact renderSingleQuestion_INVdoc d s _ hWF hCoh hinv hok2
    · have heq : prevClick s = s := by
        unfold prevClick
        rw [if_neg hc]
      rw [heq]
      exact hinv
  | next =>
    have hok2 : (nextClick s).errored = false := hok
    show INVdoc d (nextClick s)
    by_cases hc : s.hasNext = true ∧ s.currentQuestionIndex < s.allQuestions.length - 1
    · have heq : nextClick s = renderSingleQuestion s (s.currentQuestionIndex + 1) := by
        unfold nextClick
        rw [if_pos hc]
      rw [heq] at hok2 ⊢
      exact renderSingleQuestion_INVdoc d s _ hWF hCoh hinv hok2
    · have heq : nextClick s = s := by
        unfold nextClick
        rw [if_neg hc]
      rw [heq]
      exact hinv

theorem foldl_Coh (d : InitDoc) (evs : List Ev) :
    ∀ s : St, Coh d s → Coh d (evs.foldl step s) := by
  induction evs with
  | nil => exact fun s h => h
  | cons e rest ih => exact fun s h => ih (step s e) (step_Coh d s e h)

theorem run_Coh (d : InitDoc) (evs : List Ev) : Coh d (run d evs) :=
  foldl_Coh d evs (initSt d) ⟨rfl, rfl⟩

theorem initSt_INVdoc (d : InitDoc) : INVdoc d (initSt d) := by
  refine ⟨[], fun i hi => absurd hi (List.not_mem_nil i), rfl, ?_⟩
  intro p l _ hg
  rw [eraseIds_nil]
  exact hg

theorem foldl_INVdoc (d : InitDoc)
    (hWF : idsNodup d.parents)
    (hsqlt : ∀ s0, d.sqcIdx = some s0 → s0 < d.parents.length) :
    ∀ (evs : List Ev) (s : St), Coh d s → INVdoc d s →
      (evs.foldl step s).errored = false → INVdoc d (evs.foldl step s) := by
  intro evs
  induction evs with
  | nil => exact fun s _ hinv _ => hinv
  | cons e rest ih =>
    intro s hc hinv hok
    have h1 : (step s e).errored = false := foldl_errored_back rest (step s e) hok
    exact ih (step s e) (step_Coh d s e hc) (step_INVdoc d s e hWF hsqlt hc hinv h1) hok

theorem run_INVdoc (d : InitDoc) (evs : List Ev)
    (hWF : idsNodup d.parents)
    (hsqlt : ∀ s0, d.sqcIdx = some s0 → s0 < d.parents.length)
    (herr : (run d evs).errored = false) :
    INVdoc d (run d evs) :=
  foldl_INVdoc d hWF hsqlt evs (initSt d) ⟨rfl, rfl⟩ (initSt_INVdoc d) herr


/-! ### The restored document: fixpoint, question order and placement -/

theorem restored_fixpoint (d : InitDoc) (s : St)
    (hWF : idsNodup d.parents)
    (hsqlt : ∀ s0, d.sqcIdx = some s0 → s0 < d.parents.length)
    (hCoh : Coh d s)
    (hlen : s.doc.length = d.parents.length)
    (hA : ∀ p l, some p ≠ d.sqcIdx → d.parents.get? p = some l → s.doc.get? p = some l)
    (hB : ∀ s0, d.sqcIdx = some s0 → s.doc.get? s0 =
      some (((scanDoc d.parents).filter (fun f => decide (f.par = s0))).map QRef.elem))
    (hC : ∀ e ∈ scanDoc d.parents, ∀ s0, d.sqcIdx = some s0 → e.par = s0 → e.nxt = none) :
    restoreListView s = s := by
  set doc0 := (match s.sqcIdx with
    | some sq => clearP s.doc sq
    | none => s.doc) with hdoc0def
  have hlen0 : doc0.length = d.parents.length := by
    rw [hdoc0def]
    cases s.sqcIdx with
    | none => exact hlen
    | some sq =>
      show (clearP s.doc sq).length = _
      rw [clearP_length, hlen]
  have HA0 : ∀ p l, some p ≠ d.sqcIdx → d.parents.get? p = some l →
      doc0.get? p = some (eraseIds [] l) := by
    intro p l hpsq hget
    rw [eraseIds_nil, hdoc0def]
    cases hsq : s.sqcIdx with
    | none => exact hA p l hpsq hget
    | some sq =>
      have hd : d.sqcIdx = some sq := hCoh.2.symm.trans hsq
      have hpne : sq ≠ p := by
        intro h
        rw [hd, h] at hpsq
        exact hpsq rfl
      show (clearP s.doc sq).get? p = _
      rw [clearP_get?_ne _ _ _ hpne]
      exact hA p l hpsq hget
  have HB0 : ∀ s0, d.sqcIdx = some s0 → doc0.get? s0 =
      some ((([] : List QRef).filter (fun f => decide (f.par = s0))).map QRef.elem) := by
    intro s0 hs0
    have hssq : s.sqcIdx = some s0 := hCoh.2.trans hs0
    rw [hdoc0def]
    obtain ⟨l0, hl0⟩ : ∃ l0, s.doc.get? s0 = some l0 := ⟨_, hB s0 hs0⟩
    rw [hssq]
    show (clearP s.doc s0).get? s0 = _
    rw [clearP_get?_eq s.doc s0 l0 hl0]
    rfl
  have hmain := restoreCore_main d.parents d.sqcIdx hWF s.allQuestions [] doc0 []
    (by rw [hCoh.1, List.nil_append]) hlen0 HA0
    (fun i hi => absurd hi (List.not_mem_nil i)) HB0
  have hok : (restoreCore doc0 s.allQuestions).2 = true := by
    apply hmain.2
    · intro e he r2 h2
      exact List.not_mem_nil r2
    · intro e he s0 hs0 hps
      rw [hCoh.1] at he
      exact hC e he s0 hs0 hps
  obtain ⟨hl2, hA2, hB2, -⟩ := hmain.1 hok
  have hdoceq : (restoreCore doc0 s.allQuestions).1 = s.doc := by
    apply List.ext
    intro n
    by_cases hn : n < d.parents.length
    · obtain ⟨l, hl⟩ : ∃ l, d.parents.get? n = some l := by
        rw [List.get?_eq_get hn]
        exact ⟨_, rfl⟩
      cases hdn : d.sqcIdx with
      | none =>
        have hne : some n ≠ d.sqcIdx := by
          rw [hdn]
          exact fun h => Option.noConfusion h
        rw [hA2 n l hne hl, hA n l hne hl]
      | some sq =>
        by_cases hnsq : n = sq
        · subst hnsq
          rw [hB2 n hdn, hB n hdn, List.nil_append, hCoh.1]
        · have hne : some n ≠ d.sqcIdx := by
            rw [hdn]
            intro h
            exact hnsq (Option.some.inj h)
          rw [hA2 n l hne hl, hA n l hne hl]
    · have h1 : (restoreCore doc0 s.allQuestions).1.get? n = none := by
        apply List.get?_eq_none.mpr
        rw [hl2]
        omega
      have h2 : s.doc.get? n = none := by
        apply List.get?_eq_none.mpr
        rw [hlen]
        omega
      rw [h1, h2]
  show { s with
    doc := (restoreCore doc0 s.allQuestions).1,
    errored := s.errored || !(restoreCore doc0 s.allQuestions).2 } = s
  rw [hdoceq, hok]
  show { s with doc := s.doc, errored := s.errored || false } = s
  rw [Bool.or_false]

theorem questionOrder_congr (D1 D2 : List (List DNode))
    (h : ∀ p : Nat, (D1.get? p).map (fun l => l.filter (fun n => n.isQ)) =
      (D2.get? p).map (fun l => l.filter (fun n => n.isQ))) :
    questionOrder D1 = questionOrder D2 := by
  have hm : D1.map (fun l => l.filter (fun n => n.isQ)) =
      D2.map (fun l => l.filter (fun n => n.isQ)) := by
    apply List.ext
    intro p
    rw [List.get?_map, List.get?_map]
    exact h p
  unfold questionOrder
  rw [List.filter_flatten, List.filter_flatten]
  exact congrArg (fun X => (List.flatten X).map DNode.id) hm

theorem restored_questionOrder (d : InitDoc) (doc2 : List (List DNode))
    (hlen : doc2.length = d.parents.length)
    (hA : ∀ p l, some p ≠ d.sqcIdx → d.parents.get? p = some l → doc2.get? p = some l)
    (hB : ∀ s0, d.sqcIdx = some s0 → doc2.get? s0 =
      some (((scanDoc d.parents).filter (fun f => decide (f.par = s0))).map QRef.elem)) :
    questionOrder doc2 = questionOrder d.parents := by
  apply questionOrder_congr
  intro p
  by_cases hp : p < d.parents.length
  · obtain ⟨l, hl⟩ : ∃ l, d.parents.get? p = some l := by
      rw [List.get?_eq_get hp]
      exact ⟨_, rfl⟩
    cases hdn : d.sqcIdx with
    | none =>
      have hne : some p ≠ d.sqcIdx := by
        rw [hdn]
        exact fun h => Option.noConfusion h
      rw [hA p l hne hl, hl]
    | some sq =>
      by_cases hpsq : p = sq
      · subst hpsq
        rw [hB p hdn, hl, Option.map_some', Option.map_some']
        have h1 : ((scanDoc d.parents).filter (fun f => decide (f.par = p))).map QRef.elem =
            l.filter (fun n => n.isQ) := by
          rw [scanDoc_filter_par d.parents p l hl, scanChildren_map_elem]
        have h2 : ((((scanDoc d.parents).filter (fun f => decide (f.par = p))).map
            QRef.elem).filter (fun n => n.isQ)) =
            ((scanDoc d.parents).filter (fun f => decide (f.par = p))).map QRef.elem := by
          rw [List.filter_eq_self]
          intro a ha
          obtain ⟨f, hf, hfe⟩ := List.mem_map.mp ha
          have hfscan : f ∈ scanDoc d.parents := (List.mem_filter.mp hf).1
          obtain ⟨-, -, -, -, -, -, hq⟩ := scanDoc_mem_shape d.parents f hfscan
          rw [← hfe]
          exact hq
        exact congrArg some (h2.trans h1)
      · have hne : some p ≠ d.sqcIdx := by
          rw [hdn]
          intro h
          exact hpsq (Option.some.inj h)
        rw [hA p l hne hl, hl]
  · have h1 : doc2.get? p = none := by
      apply List.get?_eq_none.mpr
      rw [hlen]
      omega
    have h2 : d.parents.get? p = none := by
      apply List.get?_eq_none.mpr
      omega
    rw [h1, h2]

theorem placedIn_cons (x y : DNode) (nxt : Option Nat) (rest : List DNode) :
    placedIn x nxt (y :: rest) =
      if y = x then decide (rest.head?.map DNode.id = nxt) else placedIn x nxt rest := rfl

theorem placedIn_spec (x : DNode) (l2 : List DNode) :
    ∀ l1 : List DNode, (∀ y ∈ l1, y ≠ x) →
      placedIn x (l2.head?.map DNode.id) (l1 ++ x :: l2) = true := by
  intro l1
  induction l1 with
  | nil =>
    intro _
    rw [List.nil_append, placedIn_cons, if_pos rfl]
    exact decide_eq_true rfl
  | cons y ys ih =>
    intro h
    rw [List.cons_append, placedIn_cons, if_neg (h y (List.mem_cons_self y ys))]
    exact ih (fun z hz => h z (List.mem_cons_of_mem y hz))

theorem not_mem_left_of_nodup_ids (l1 l2 : List DNode) (x : DNode)
    (h : ((l1 ++ x :: l2).map DNode.id).Nodup) : ∀ y ∈ l1, y ≠ x := by
  intro y hy heq
  rw [List.map_append, List.map_cons, List.nodup_append] at h
  exact h.2.2 (List.mem_map_of_mem DNode.id hy)
    (by rw [heq]; exact List.mem_cons_self x.id (l2.map DNode.id))

theorem eq_singleton_of_all_eq {α : Type} (l : List α) (e : α) (hn : l.Nodup)
    (hmem : e ∈ l) (hall : ∀ f ∈ l, f = e) : l = [e] := by
  cases l with
  | nil => cases hmem
  | cons a t =>
    have ha : a = e := hall a (List.mem_cons_self a t)
    subst ha
    have ht : t = [] := by
      cases t with
      | nil => rfl
      | cons b t2 =>
        have hb : b = a := hall b (List.mem_cons_of_mem a (List.mem_cons_self b t2))
        have hbmem : a ∈ b :: t2 := by
          rw [← hb]
          exact List.mem_cons_self b t2
        rw [List.nodup_cons] at hn
        exact absurd hbmem hn.1
    rw [ht]

theorem container_entry_unique (D : List (List DNode)) (hWF : idsNodup D)
    (e f : QRef) (he : e ∈ scanDoc D) (hf : f ∈ scanDoc D)
    (hp : f.par = e.par) (hen : e.nxt = none) (hfn : f.nxt = none) : f = e := by
  obtain ⟨le, a1, b1, hgete, hle, hne, -⟩ := scanDoc_mem_shape D e he
  obtain ⟨lf, a2, b2, hgetf, hlf, hnf, -⟩ := scanDoc_mem_shape D f hf
  rw [hp] at hgetf
  have hll : lf = le := Option.some.inj (hgetf.symm.trans hgete)
  have hb1 : b1 = [] := by
    rw [hen] at hne
    cases b1 with
    | nil => rfl
    | cons c cs => simp at hne
  have hb2 : b2 = [] := by
    rw [hfn] at hnf
    cases b2 with
    | nil => rfl
    | cons c cs => simp at hnf
  rw [hb1] at hle
  rw [hb2, hll] at hlf
  have helem : f.elem = e.elem :=
    last_eq_of_concat_eq f.elem e.elem a2 a1 (hlf.symm.trans hle)
  have h1 : f.nxt = e.nxt := by rw [hen, hfn]
  calc f = ⟨f.elem, f.par, f.nxt⟩ := rfl
    _ = ⟨e.elem, e.par, e.nxt⟩ := by rw [helem, hp, h1]
    _ = e := rfl

theorem restored_placedOK (d : InitDoc) (hWF : idsNodup d.parents)
    (doc2 : List (List DNode))
    (hA : ∀ p l, some p ≠ d.sqcIdx → d.parents.get? p = some l → doc2.get? p = some l)
    (hB : ∀ s0, d.sqcIdx = some s0 → doc2.get? s0 =
      some (((scanDoc d.parents).filter (fun f => decide (f.par = s0))).map QRef.elem))
    (hC : ∀ e ∈ scanDoc d.parents, ∀ s0, d.sqcIdx = some s0 → e.par = s0 → e.nxt = none) :
    ∀ e ∈ scanDoc d.parents, placedOK doc2 e = true := by
  intro e he
  obtain ⟨le, l1, l2, hgete, hle, hne, -⟩ := scanDoc_mem_shape d.parents e he
  by_cases hpar : some e.par = d.sqcIdx
  · obtain ⟨sq, hsq⟩ : ∃ sq, d.sqcIdx = some sq := ⟨e.par, hpar.symm⟩
    have hps : e.par = sq := Option.some.inj (hpar.trans hsq)
    have hnE : e.nxt = none := hC e he sq hsq hps
    have hget2 := hB sq hsq
    set L := (scanDoc d.parents).filter (fun f => decide (f.par = sq)) with hL
    have heL : e ∈ L := by
      rw [hL]
      apply List.mem_filter.mpr
      refine ⟨he, ?_⟩
      show decide (e.par = sq) = true
      rw [hps]
      exact decide_eq_true rfl
    have hallL : ∀ f ∈ L, f = e := by
      intro f hfL
      have hf := List.mem_filter.mp (hL ▸ hfL)
      have hfscan : f ∈ scanDoc d.parents := hf.1
      have hfpar : f.par = sq := of_decide_eq_true hf.2
      have hfn : f.nxt = none := hC f hfscan sq hsq hfpar
      exact container_entry_unique d.parents hWF e f he hfscan
        (by rw [hfpar, hps]) hnE hfn
    have hLnodup : L.Nodup := List.Nodup.filter _ (scan_nodup d.parents hWF)
    have hLsing : L = [e] := eq_singleton_of_all_eq L e hLnodup heL hallL
    unfold placedOK
    rw [hps, hget2, hLsing]
    show placedIn e.elem e.nxt [e.elem] = true
    rw [hnE, placedIn_cons, if_pos rfl]
    rfl
  · have hget2 : doc2.get? e.par = some le := hA e.par le hpar hgete
    unfold placedOK
    rw [hget2]
    show placedIn e.elem e.nxt le = true
    rw [hle, hne]
    apply placedIn_spec
    apply not_mem_left_of_nodup_ids l1 l2 e.elem
    rw [← hle]
    exact within_ids_nodup d.parents hWF e.par le hgete


/-! ### A restore that cannot throw -/

theorem scan_head_not_referenced (D : List (List DNode)) (hWF : idsNodup D)
    (q0 : QRef) (tail : List QRef) (hhead : scanDoc D = q0 :: tail)
    (e : QRef) (he : e ∈ scanDoc D) : e.nxt ≠ some q0.elem.id := by
  intro hnx
  obtain ⟨pre, rest, hsplit⟩ : ∃ pre rest, scanDoc D = pre ++ e :: rest :=
    List.append_of_mem he
  have hq0 : q0 ∈ scanDoc D := by
    rw [hhead]
    exact List.mem_cons_self q0 tail
  have hin : q0 ∈ rest := scan_ref_comes_later D hWF e q0 pre rest hsplit hq0 hnx
  have hnd := scan_nodup D hWF
  cases pre with
  | nil =>
    rw [List.nil_append] at hsplit
    have hq0e : q0 = e := (List.cons.inj (hhead.symm.trans hsplit)).1
    rw [hsplit, List.nodup_cons] at hnd
    exact hnd.1 (hq0e ▸ hin)
  | cons a pre2 =>
    have hq0a : q0 = a := by
      have h2 := hhead.symm.trans hsplit
      rw [List.cons_append] at h2
      exact (List.cons.inj h2).1
    rw [hsplit, List.cons_append, List.nodup_cons] at hnd
    apply hnd.1
    rw [hq0a] at hin
    exact List.mem_append_right pre2 (List.mem_cons_of_mem e hin)

theorem renderSingleQuestion_currentMode (s : St) (i : Nat) :
    (renderSingleQuestion s i).currentMode = s.currentMode := by
  unfold renderSingleQuestion
  cases s.sqcIdx with
  | none => rfl
  | some sq =>
    simp only
    split
    · rfl
    · cases s.allQuestions.get? i
      · rfl
      · rfl

theorem renderSingleQuestion_first_errored (s : St) (h : s.errored = false) :
    (renderSingleQuestion s 0).errored = false := by
  cases hsq : s.sqcIdx with
  | none =>
    rw [renderSingleQuestion_noop s 0 (Or.inl hsq)]
    exact h
  | some sq =>
    by_cases hguard : s.hasProgress = false ∨ s.hasPrev = false ∨ s.hasNext = false ∨
        s.allQuestions.length = 0
    · rw [renderSingleQuestion_noop s 0 (Or.inr hguard)]
      exact h
    · cases hget : s.allQuestions.get? 0 with
      | none =>
        have hlen0 : s.allQuestions.length = 0 := by
          have := List.get?_eq_none.mp hget
          omega
        exact absurd (Or.inr (Or.inr (Or.inr hlen0))) hguard
      | some qr =>
        rw [renderSingleQuestion_eq_ok s 0 sq qr hsq hguard hget]
        exact h

theorem restoreListView_no_throw (d : InitDoc) (s : St)
    (hWF : idsNodup d.parents)
    (hsqlt : ∀ s0, d.sqcIdx = some s0 → s0 < d.parents.length)
    (hsep : separated d)
    (hCoh : Coh d s)
    (R : List Nat)
    (hlen : s.doc.length = d.parents.length)
    (HA : ∀ p l, some p ≠ d.sqcIdx → d.parents.get? p = some l →
      s.doc.get? p = some (eraseIds R l))
    (HR : ∀ i ∈ R, ∃ e, e ∈ scanDoc d.parents ∧ e.elem.id = i ∧ some e.par ≠ d.sqcIdx)
    (HNR : ∀ e ∈ scanDoc d.parents, ∀ r2, e.nxt = some r2 → r2 ∉ R)
    (herr : s.errored = false) :
    (restoreListView s).errored = false := by
  set doc0 := (match s.sqcIdx with
    | some sq => clearP s.doc sq
    | none => s.doc) with hdoc0def
  have hlen0 : doc0.length = d.parents.length := by
    rw [hdoc0def]
    cases s.sqcIdx with
    | none => exact hlen
    | some sq =>
      show (clearP s.doc sq).length = _
      rw [clearP_length, hlen]
  have HA0 : ∀ p l, some p ≠ d.sqcIdx → d.parents.get? p = some l →
      doc0.get? p = some (eraseIds R l) := by
    intro p l hpsq hget
    rw [hdoc0def]
    cases hsq : s.sqcIdx with
    | none => exact HA p l hpsq hget
    | some sq =>
      have hd : d.sqcIdx = some sq := hCoh.2.symm.trans hsq
      have hpne : sq ≠ p := by
        intro h
        rw [hd, h] at hpsq
        exact hpsq rfl
      show (clearP s.doc sq).get? p = _
      rw [clearP_get?_ne _ _ _ hpne]
      exact HA p l hpsq hget
  have HB0 : ∀ s0, d.sqcIdx = some s0 → doc0.get? s0 =
      some ((([] : List QRef).filter (fun f => decide (f.par = s0))).map QRef.elem) := by
    intro s0 hs0
    have hssq : s.sqcIdx = some s0 := hCoh.2.trans hs0
    rw [hdoc0def]
    have hlt : s0 < s.doc.length := by
      rw [hlen]
      exact hsqlt s0 hs0
    obtain ⟨l0, hl0⟩ : ∃ l0, s.doc.get? s0 = some l0 := by
      rw [List.get?_eq_get hlt]
      exact ⟨_, rfl⟩
    rw [hssq]
    show (clearP s.doc s0).get? s0 = _
    rw [clearP_get?_eq s.doc s0 l0 hl0]
    rfl
  have hmain := restoreCore_main d.parents d.sqcIdx hWF s.allQuestions [] doc0 R
    (by rw [hCoh.1, List.nil_append]) hlen0 HA0
    (by
      intro i hi
      obtain ⟨e2, he2, hid, hpq⟩ := HR i hi
      exact ⟨e2, by rw [hCoh.1]; exact he2, hid, hpq⟩)
    HB0
  have hok : (restoreCore doc0 s.allQuestions).2 = true := by
    apply hmain.2
    · intro e he r2 h2
      rw [hCoh.1] at he
      exact HNR e he r2 h2
    · intro e he s0 hs0 hps
      rw [hCoh.1] at he
      have h2 := hsep e he
      rw [hs0, hps] at h2
      exact absurd rfl h2
  show (s.errored || !(restoreCore doc0 s.allQuestions).2) = false
  rw [herr, hok]
  rfl


/-! ### Claims C7, C3 and C1 -/

/-- A reachable, error-free state from which `restoreListView` nevertheless
throws: the second question was loaded inside the single-question container,
so restoring the first question looks for a next sibling that the clearing
of the container destroyed.  Used to refute claims C7 and (separately) C3
as stated. -/
def c7doc : InitDoc :=
  { parents := [[], [{ id := 1, isQ := true }, { id := 2, isQ := true }]],
    sqcIdx := some 0,
    hasProgress := true, hasPrev := true, hasNext := true, modeBtns := [] }

theorem c7_counterexample :
    (run c7doc [Ev.mode Mode.single, Ev.next]).errored = false ∧
    (restoreListView (run c7doc [Ev.mode Mode.single, Ev.next])).errored = true ∧
    questionOrder (restoreListView (run c7doc [Ev.mode Mode.single, Ev.next])).doc ≠
      questionOrder c7doc.parents := by
  decide

/-- C7 (corrected): `restoreListView` is not total — from a reachable state
its `insertBefore` calls can throw `NotFoundError` and lose document order
(`c7_counterexample`).  Whenever a call from a reachable state does complete
without throwing, the claim holds: the document order of question elements
equals the order captured at initialisation, and every further
`restoreListView` call is a fixpoint — nothing is reordered or duplicated. -/
theorem c7_restore_idempotent (d : InitDoc) (evs : List Ev)
    (hWF : idsNodup d.parents)
    (hsqlt : ∀ s0, d.sqcIdx = some s0 → s0 < d.parents.length)
    (hok : (restoreListView (run d evs)).errored = false) :
    questionOrder (restoreListView (run d evs)).doc = questionOrder d.parents ∧
    ∀ n : Nat, restoreListView^[n] (restoreListView (run d evs)) =
      restoreListView (run d evs) := by
  have herr : (run d evs).errored = false := by
    cases hcase : (run d evs).errored
    · rfl
    · rw [restoreListView_errored_mono _ hcase] at hok
      cases hok
  have hCoh := run_Coh d evs
  have hinv := run_INVdoc d evs hWF hsqlt herr
  obtain ⟨hlen, hA, hB, hC⟩ :=
    restoreListView_ok_spec d (run d evs) hWF hsqlt hCoh hinv herr hok
  have hCoh2 : Coh d (restoreListView (run d evs)) := hCoh
  have hfix : restoreListView (restoreListView (run d evs)) = restoreListView (run d evs) :=
    restored_fixpoint d (restoreListView (run d evs)) hWF hsqlt hCoh2 hlen hA hB hC
  exact ⟨restored_questionOrder d (restoreListView (run d evs)).doc hlen hA hB,
    fun n => Function.iterate_fixed hfix n⟩

/-- A small document on which the restore round trip succeeds, used to
instantiate the corrected claim C7. -/
def c7wdoc : InitDoc :=
  { parents := [[], [{ id := 3, isQ := true }]], sqcIdx := some 0,
    hasProgress := true, hasPrev := true, hasNext := true, modeBtns := [] }

theorem c7_witness :
    questionOrder (restoreListView (run c7wdoc [Ev.mode Mode.single])).doc =
      questionOrder c7wdoc.parents ∧
    ∀ n : Nat, restoreListView^[n] (restoreListView (run c7wdoc [Ev.mode Mode.single])) =
      restoreListView (run c7wdoc [Ev.mode Mode.single]) :=
  c7_restore_idempotent c7wdoc [Ev.mode Mode.single] (by unfold idsNodup; decide)
    (by
      intro s0 hs0
      have h2 : some 0 = some s0 := hs0
      injection h2 with h3
      show s0 < 2
      omega)
    (by decide)

/-- A document on which `restoreListView`, called from a reachable state,
throws: the single-question container is the question's own parent, so the
recorded next sibling is destroyed before the re-insertion.  Refutes the
"never a fatal error" part of claim C3. -/
def c3doc : InitDoc :=
  { parents := [[{ id := 5, isQ := true }, { id := 6, isQ := false }]],
    sqcIdx := some 0,
    hasProgress := true, hasPrev := true, hasNext := true, modeBtns := [] }

theorem c3_counterexample :
    (restoreListView (run c3doc [Ev.mode Mode.exam])).errored = true := by
  decide

/-- C3 (corrected): `insertBefore` with a recorded next sibling that is no
longer a child of the original parent throws `NotFoundError` instead of
appending, and the loop aborts (`c3_counterexample`) — the call is not
crash-free.  Whenever a `restoreListView` call from a reachable state does
complete without throwing, every registry entry ends up attached under its
original parent immediately before its recorded next sibling, or as the
last child when none was recorded. -/
theorem c3_restore_positions (d : InitDoc) (evs : List Ev)
    (hWF : idsNodup d.parents)
    (hsqlt : ∀ s0, d.sqcIdx = some s0 → s0 < d.parents.length)
    (hok : (restoreListView (run d evs)).errored = false) :
    ∀ e ∈ scanDoc d.parents,
      placedOK (restoreListView (run d evs)).doc e = true := by
  have herr : (run d evs).errored = false := by
    cases hcase : (run d evs).errored
    · rfl
    · rw [restoreListView_errored_mono _ hcase] at hok
      cases hok
  have hCoh := run_Coh d evs
  have hinv := run_INVdoc d evs hWF hsqlt herr
  obtain ⟨-, hA, hB, hC⟩ :=
    restoreListView_ok_spec d (run d evs) hWF hsqlt hCoh hinv herr hok
  exact restored_placedOK d hWF (restoreListView (run d evs)).doc hA hB hC

/-- A document on which the restore pass places its question back correctly,
used to instantiate the corrected claim C3. -/
def c3wdoc : InitDoc :=
  { parents := [[], [{ id := 7, isQ := true }, { id := 8, isQ := false }]],
    sqcIdx := some 0,
    hasProgress := true, hasPrev := true, hasNext := true, modeBtns := [] }

theorem c3_witness :
    placedOK (restoreListView (run c3wdoc [Ev.mode Mode.single])).doc
      { elem := { id := 7, isQ := true }, par := 1, nxt := some 8 } = true :=
  c3_restore_positions c3wdoc [Ev.mode Mode.single] (by unfold idsNodup; decide)
    (by
      intro s0 hs0
      have h2 : some 0 = some s0 := hs0
      injection h2 with h3
      show s0 < 2
      omega)
    (by decide)
    { elem := { id := 7, isQ := true }, par := 1, nxt := some 8 } (by decide)

/-- A document whose only question is loaded inside the single-question
container: the List→Single→List round trip destroys its recorded next
sibling and the final restore throws, leaving the question detached.
Refutes claim C1 as stated. -/
def c1doc : InitDoc :=
  { parents := [[{ id := 1, isQ := true }, { id := 2, isQ := false }]],
    sqcIdx := some 0,
    hasProgress := true, hasPrev := true, hasNext := true, modeBtns := [] }

theorem c1_counterexample :
    (run c1doc [Ev.mode Mode.single, Ev.mode Mode.list]).errored = true ∧
    questionOrder (run c1doc [Ev.mode Mode.single, Ev.mode Mode.list]).doc ≠
      questionOrder c1doc.parents := by
  decide

/-- C1 (corrected): the List→Single/Exam→List round trip is a faithful
restoration only for documents where no question is loaded inside the
single-question display surface (otherwise the final restore throws,
`c1_counterexample`).  Under that separation — together with distinct node
ids and an in-range container index — the round trip raises no error, the
document order of question elements equals the order captured at
initialisation, and every registry entry sits under its original parent in
its original relative position. -/
theorem c1_round_trip (d : InitDoc) (m : Mode)
    (hWF : idsNodup d.parents)
    (hsqlt : ∀ s0, d.sqcIdx = some s0 → s0 < d.parents.length)
    (hsep : separated d)
    (hm : m ≠ Mode.list) :
    (run d [Ev.mode m, Ev.mode Mode.list]).errored = false ∧
    questionOrder (run d [Ev.mode m, Ev.mode Mode.list]).doc = questionOrder d.parents ∧
    ∀ e ∈ scanDoc d.parents,
      placedOK (run d [Ev.mode m, Ev.mode Mode.list]).doc e = true := by
  have hrun : run d [Ev.mode m, Ev.mode Mode.list] =
      switchMode (switchMode (initSt d) m) Mode.list := rfl
  have h1 : ¬ (initSt d).currentMode = m := by
    show ¬ Mode.list = m
    intro h
    exact hm h.symm
  set s1 : St := { initSt d with
    currentMode := m, bodyViewMode := some m,
    modeBtns := (initSt d).modeBtns.map (fun b => (b.1, decide (b.1 = m))) } with hs1
  set sA : St := renderSingleQuestion s1 0 with hsA
  have hswitch1 : switchMode (initSt d) m = sA := by
    rw [switchMode_eq_render (initSt d) m h1 hm]
    rfl
  have hCohA : Coh d sA := by
    constructor
    · rw [hsA, renderSingleQuestion_allQuestions]
      rfl
    · rw [hsA, renderSingleQuestion_sqcIdx]
      rfl
  have herrA : sA.errored = false := by
    rw [hsA]
    exact renderSingleQuestion_first_errored s1 rfl
  obtain ⟨R, hRwit, hRnr, hlenA, hAA⟩ :
      ∃ R : List Nat,
        (∀ i ∈ R, ∃ e, e ∈ scanDoc d.parents ∧ e.elem.id = i ∧ some e.par ≠ d.sqcIdx) ∧
        (∀ e ∈ scanDoc d.parents, ∀ r2, e.nxt = some r2 → r2 ∉ R) ∧
        sA.doc.length = d.parents.length ∧
        (∀ p l, some p ≠ d.sqcIdx → d.parents.get? p = some l →
          sA.doc.get? p = some (eraseIds R l)) := by
    cases hsq : s1.sqcIdx with
    | none =>
      refine ⟨[], fun i hi => absurd hi (List.not_mem_nil i),
        fun e he r2 h2 => List.not_mem_nil r2, ?_, ?_⟩
      · rw [hsA, renderSingleQuestion_noop s1 0 (Or.inl hsq)]
        rfl
      · intro p l hp hg
        rw [hsA, renderSingleQuestion_noop s1 0 (Or.inl hsq), eraseIds_nil]
        exact hg
    | some sq =>
      by_cases hguard : s1.hasProgress = false ∨ s1.hasPrev = false ∨
          s1.hasNext = false ∨ s1.allQuestions.length = 0
      · refine ⟨[], fun i hi => absurd hi (List.not_mem_nil i),
          fun e he r2 h2 => List.not_mem_nil r2, ?_, ?_⟩
        · rw [hsA, renderSingleQuestion_noop s1 0 (Or.inr hguard)]
          rfl
        · intro p l hp hg
          rw [hsA, renderSingleQuestion_noop s1 0 (Or.inr hguard), eraseIds_nil]
          exact hg
      · cases hget : s1.allQuestions.get? 0 with
        | none =>
          have hlen0 : s1.allQuestions.length = 0 := by
            have := List.get?_eq_none.mp hget
            omega
          exact absurd (Or.inr (Or.inr (Or.inr hlen0))) hguard
        | some q0 =>
          have heq := renderSingleQuestion_eq_ok s1 0 sq q0 hsq hguard hget
          have hd : d.sqcIdx = some sq := hsq
          have hgets : (scanDoc d.parents).get? 0 = some q0 := hget
          have hq0scan : q0 ∈ scanDoc d.parents := List.get?_mem hgets
          obtain ⟨tail, hhead⟩ : ∃ tail, scanDoc d.parents = q0 :: tail := by
            cases hscan : scanDoc d.parents with
            | nil =>
              rw [hscan] at hgets
              cases hgets
            | cons a t =>
              rw [hscan] at hgets
              have ha : some a = some q0 := hgets
              refine ⟨t, ?_⟩
              rw [Option.some.inj ha]
          refine ⟨[q0.elem.id], ?_, ?_, ?_, ?_⟩
          · intro i hi
            have hii : i = q0.elem.id := by
              rcases List.mem_cons.mp hi with h | h
              · exact h
              · exact absurd h (List.not_mem_nil i)
            exact ⟨q0, hq0scan, hii.symm, hsep q0 hq0scan⟩
          · intro e he r2 h2 hmem
            have hr2 : r2 = q0.elem.id := by
              rcases List.mem_cons.mp hmem with h | h
              · exact h
              · exact absurd h (List.not_mem_nil r2)
            rw [hr2] at h2
            exact scan_head_not_referenced d.parents hWF q0 tail hhead e he h2
          · rw [hsA, heq]
            show (appendMove (clearP s1.doc sq) sq q0.elem).length = _
            rw [appendMove_length, clearP_length]
            rfl
          · intro p l hp hg
            rw [hsA, heq]
            have hpne : sq ≠ p := by
              intro h
              rw [hd, h] at hp
              exact hp rfl
            show (appendMove (clearP s1.doc sq) sq q0.elem).get? p = _
            unfold appendMove
            rw [modifyP_get?_ne _ _ _ _ hpne, removeNode_get?,
              clearP_get?_ne _ _ _ hpne]
            have hgp : s1.doc.get? p = some l := hg
            rw [hgp]
            have hconv := eraseIds_filter_ne [] l q0.elem.id
            rw [eraseIds_nil] at hconv
            show some (l.filter (fun n => decide (n.id ≠ q0.elem.id))) = _
            rw [hconv]
  have hmodeA : sA.currentMode = m := by
    rw [hsA, renderSingleQuestion_currentMode]
  have h2 : ¬ sA.currentMode = Mode.list := by
    rw [hmodeA]
    exact hm
  set s2 : St := { sA with
    currentMode := Mode.list, bodyViewMode := some Mode.list,
    modeBtns := sA.modeBtns.map (fun b => (b.1, decide (b.1 = Mode.list))) } with hs2
  have hswitch2 : switchMode sA Mode.list = restoreListView s2 :=
    switchMode_eq_restore sA Mode.list h2 rfl
  have hrun2 : run d [Ev.mode m, Ev.mode Mode.list] = restoreListView s2 := by
    rw [hrun, hswitch1]
    exact hswitch2
  have hCoh2 : Coh d s2 := hCohA
  have herr2 : s2.errored = false := herrA
  have hlen2 : s2.doc.length = d.parents.length := hlenA
  have hA2 : ∀ p l, some p ≠ d.sqcIdx → d.parents.get? p = some l →
      s2.doc.get? p = some (eraseIds R l) := hAA
  have hokF : (restoreListView s2).errored = false :=
    restoreListView_no_throw d s2 hWF hsqlt hsep hCoh2 R hlen2 hA2 hRwit hRnr herr2
  have hinv2 : INVdoc d s2 := ⟨R, hRwit, hlen2, hA2⟩
  obtain ⟨hlenF, hAF, hBF, hCF⟩ :=
    restoreListView_ok_spec d s2 hWF hsqlt hCoh2 hinv2 herr2 hokF
  refine ⟨?_, ?_, ?_⟩
  · rw [hrun2]
    exact hokF
  · rw [hrun2]
    exact restored_questionOrder d (restoreListView s2).doc hlenF hAF hBF
  · intro e he
    rw [hrun2]
    exact restored_placedOK d hWF (restoreListView s2).doc hAF hBF hCF e he

/-- A wellformed separated document, used to instantiate the corrected claim
C1. -/
def c1wdoc : InitDoc :=
  { parents := [[], [{ id := 1, isQ := true }, { id := 2, isQ := false }]],
    sqcIdx := some 0,
    hasProgress := true, hasPrev := true, hasNext := true, modeBtns := [] }

theorem c1_witness :
    (run c1wdoc [Ev.mode Mode.single, Ev.mode Mode.list]).errored = false ∧
    questionOrder (run c1wdoc [Ev.mode Mode.single, Ev.mode Mode.list]).doc =
      questionOrder c1wdoc.parents ∧
    ∀ e ∈ scanDoc c1wdoc.parents,
      placedOK (run c1wdoc [Ev.mode Mode.single, Ev.mode Mode.list]).doc e = true :=
  c1_round_trip c1wdoc Mode.single (by unfold idsNodup; decide)
    (by
      intro s0 hs0
      have h2 : some 0 = some s0 := hs0
      injection h2 with h3
      show s0 < 2
      omega)
    (by unfold separated; decide) (by decide)

end Sinav
